import Mathlib

/-!
A shallow embedding of the BCS serializer (`src/ser.rs`) and proofs of the
specification claims about it.

Bytes are modelled as `Nat` (with values `< 256` produced by the encoder),
byte buffers as `List Nat`, machine integers as `Nat`/`Int` with explicit
`% 2^w` where the source casts.
-/

set_option linter.unreachableTactic false
set_option linter.unusedTactic false
set_option linter.unusedVariables false

namespace BCS

/-- Modelled from the spec: the error enum (`error.rs` is not under `src/`);
variants follow the taxonomy of spec §7. -/
inductive Err where
  | NotSupported (reason : String)
  | ExceededMaxLen (n : Nat)
  | ExceededContainerDepthLimit (name : String)
  | MissingLen
  | ExpectedMapKey
  | ExpectedMapValue
  | Io (msg : String)
deriving DecidableEq, Repr

/-- Modelled from the spec: `MAX_SEQUENCE_LENGTH` (spec §6.3: "≈ 2³¹ − 1,
must fit in a non-negative 32-bit signed range"); the constant itself lives
outside `src/`. -/
def MAX_SEQUENCE_LENGTH : Nat := 2 ^ 31 - 1

/-- Modelled from the spec: `MAX_CONTAINER_DEPTH` (spec §6.3:
`DEFAULT_DEPTH_LIMIT = 500`); the constant itself lives outside `src/`. -/
def MAX_CONTAINER_DEPTH : Nat := 500

/-- `usize::MAX` on a 64-bit target, the overflow bound of
`WriteCounter`'s `checked_add`. -/
def USIZE_MAX : Nat := 2 ^ 64 - 1

/-- The two sinks the program instantiates `W: Write` with: `Vec<u8>`
(used by `to_bytes` and for map scratch buffers) and `WriteCounter`
(used by `serialized_size`). -/
inductive Sink where
  | vec (buf : List Nat)
  | counter (n : Nat)
deriving DecidableEq, Repr

/-- `write_all` on either sink.  A `Vec<u8>` appends and never fails;
`WriteCounter::write` adds the length with `checked_add`, failing with an
`Io` error (state unchanged) on `usize` overflow. -/
def Sink.writeAll : Sink → List Nat → Sink × Option Err
  | .vec buf, bs => (.vec (buf ++ bs), none)
  | .counter n, bs =>
      if n + bs.length ≤ USIZE_MAX then (.counter (n + bs.length), none)
      else (.counter n, some (.Io "WriteCounter reached max value"))

/-- The byte buffer of a `vec` sink. -/
def Sink.toBytes : Sink → List Nat
  | .vec buf => buf
  | .counter _ => []

/-- The count of a `counter` sink. -/
def Sink.count : Sink → Nat
  | .vec buf => buf.length
  | .counter n => n

/-- Error-propagating sequencing of sink-threading steps (the `?` operator
of the source). -/
def andThen (r : Sink × Option Err) (f : Sink → Sink × Option Err) :
    Sink × Option Err :=
  match r with
  | (st, some e) => (st, some e)
  | (st, none) => f st

/-- `Serializer::output_u32_as_uleb128`: while `value >= 0x80` emit the low
7 bits with the high bit set (`(value & 0x7f) | 0x80`, i.e.
`value % 0x80 + 0x80`), shifting right by 7 (`value / 0x80`); finally emit
`value as u8` (`value % 256`). -/
def output_u32_as_uleb128 (value : Nat) (st : Sink) : Sink × Option Err :=
  if 0x80 ≤ value then
    andThen (st.writeAll [value % 0x80 + 0x80]) fun st1 =>
      output_u32_as_uleb128 (value / 0x80) st1
  else
    st.writeAll [value % 256]
termination_by value
decreasing_by exact Nat.div_lt_self (by omega) (by omega)

/-- The pure byte sequence `output_u32_as_uleb128` emits. -/
def ulebBytes (value : Nat) : List Nat :=
  if 0x80 ≤ value then (value % 0x80 + 0x80) :: ulebBytes (value / 0x80)
  else [value % 256]
termination_by value
decreasing_by exact Nat.div_lt_self (by omega) (by omega)

/-- `Serializer::output_variant_index` (argument is a `u32`). -/
def output_variant_index (v : Nat) (st : Sink) : Sink × Option Err :=
  output_u32_as_uleb128 (v % 2 ^ 32) st

/-- `Serializer::output_seq_len`: check the length against
`MAX_SEQUENCE_LENGTH`, then emit it as ULEB128 (`len as u32`). -/
def output_seq_len (len : Nat) (st : Sink) : Sink × Option Err :=
  if len > MAX_SEQUENCE_LENGTH then (st, some (.ExceededMaxLen len))
  else output_u32_as_uleb128 (len % 2 ^ 32) st

/-- `Serializer::enter_named_container`: fail when the budget is exhausted,
otherwise return the decremented budget. -/
def enter_named_container (depth : Nat) (name : String) : Except Err Nat :=
  if depth = 0 then .error (.ExceededContainerDepthLimit name)
  else .ok (depth - 1)

/-- `uN::to_le_bytes`: little-endian bytes of `v` at `width` bytes. -/
def toLeBytes (width v : Nat) : List Nat :=
  match width with
  | 0 => []
  | n + 1 => v % 256 :: toLeBytes n (v / 256)

/-- Two's-complement reinterpretation `iN as uN` of the source's signed
entry points. -/
def asUnsigned (w : Nat) (v : Int) : Nat := (v % (2 ^ w : Int)).toNat

/-- Lexicographic byte-order comparison, `Vec<u8>`'s `Ord::cmp` as a
boolean `≤`. -/
def lexLe : List Nat → List Nat → Bool
  | [], _ => true
  | _ :: _, [] => false
  | a :: as, b :: bs => a < b || (a == b && lexLe as bs)

/-- `Vec::dedup_by` tail loop: drop each element whose key equals the key
of the previously retained element (`prev`). -/
def dedupTail (prev : List Nat × List Nat) :
    List (List Nat × List Nat) → List (List Nat × List Nat)
  | [] => []
  | e :: rest =>
      if e.1 = prev.1 then dedupTail prev rest else e :: dedupTail e rest

/-- `self.entries.dedup_by(|e1, e2| e1.0.eq(&e2.0))`: remove all but the
first of consecutive entries with equal key bytes. -/
def dedupByKey : List (List Nat × List Nat) → List (List Nat × List Nat)
  | [] => []
  | e :: rest => e :: dedupTail e rest

/-- Comparator of `self.entries.sort_by(|e1, e2| e1.0.cmp(&e2.0))`. -/
def entryLe (e1 e2 : List Nat × List Nat) : Bool := lexLe e1.1 e2.1

/-- The values the reflection framework (serde) can drive the serializer
with; one constructor per `ser::Serializer` method of the source. -/
inductive Value where
  | bool (b : Bool)
  | i8 (v : Int)
  | i16 (v : Int)
  | i32 (v : Int)
  | i64 (v : Int)
  | i128 (v : Int)
  | u8 (v : Nat)
  | u16 (v : Nat)
  | u32 (v : Nat)
  | u64 (v : Nat)
  | u128 (v : Nat)
  | f32
  | f64
  | char
  | str (bytes : List Nat)
  | bytes (b : List Nat)
  | noneV
  | someV (v : Value)
  | unit
  | unitStruct (name : String)
  | unitVariant (name : String) (idx : Nat)
  | newtypeStruct (name : String) (v : Value)
  | newtypeVariant (name : String) (idx : Nat) (v : Value)
  | seq (xs : List Value)
  | seqNoLen (xs : List Value)
  | tuple (xs : List Value)
  | tupleStruct (name : String) (xs : List Value)
  | tupleVariant (name : String) (idx : Nat) (xs : List Value)
  | map (entries : List (Value × Value))
  | structV (name : String) (fields : List Value)
  | structVariant (name : String) (idx : Nat) (fields : List Value)

/-- The state of `MapSerializer`: the parent serializer (sink plus
remaining depth), the buffered entries, and the pending key. -/
structure MapSerializer where
  sink : Sink
  depth : Nat
  entries : List (List Nat × List Nat)
  next_key : Option (List Nat)
deriving DecidableEq, Repr

/-- Write the sorted, deduplicated entries: for each, the key bytes then
the value bytes (the `for` loop of `MapSerializer::end`). -/
def writeEntries : List (List Nat × List Nat) → Sink → Sink × Option Err
  | [], st => (st, none)
  | (k, v) :: rest, st =>
      andThen (andThen (st.writeAll k) fun st1 => st1.writeAll v)
        (writeEntries rest)

/-- `MapSerializer::end`: fail if a key is pending; sort by key bytes,
deduplicate, emit the entry count then each key-value pair. -/
def mapEnd (m : MapSerializer) : Sink × Option Err :=
  if m.next_key.isSome then (m.sink, some .ExpectedMapValue)
  else
    let entries := dedupByKey (m.entries.mergeSort entryLe)
    andThen (output_seq_len entries.length m.sink) fun st =>
      writeEntries entries st

mutual

/-- `value.serialize(serializer)`: the dispatch of `impl ser::Serializer
for Serializer`, one case per method of the source. -/
def serValue : Value → Nat → Sink → Sink × Option Err
  | .bool b, _, st => st.writeAll [if b then 1 else 0]
  | .i8 v, _, st => st.writeAll [asUnsigned 8 v]
  | .i16 v, _, st => st.writeAll (toLeBytes 2 (asUnsigned 16 v))
  | .i32 v, _, st => st.writeAll (toLeBytes 4 (asUnsigned 32 v))
  | .i64 v, _, st => st.writeAll (toLeBytes 8 (asUnsigned 64 v))
  | .i128 v, _, st => st.writeAll (toLeBytes 16 (asUnsigned 128 v))
  | .u8 v, _, st => st.writeAll [v % 256]
  | .u16 v, _, st => st.writeAll (toLeBytes 2 v)
  | .u32 v, _, st => st.writeAll (toLeBytes 4 v)
  | .u64 v, _, st => st.writeAll (toLeBytes 8 v)
  | .u128 v, _, st => st.writeAll (toLeBytes 16 v)
  | .f32, _, st => (st, some (.NotSupported "serialize_f32"))
  | .f64, _, st => (st, some (.NotSupported "serialize_f64"))
  | .char, _, st => (st, some (.NotSupported "serialize_char"))
  | .str s, _, st =>
      andThen (output_seq_len s.length st) fun st1 => st1.writeAll s
  | .bytes b, _, st =>
      andThen (output_seq_len b.length st) fun st1 => st1.writeAll b
  | .noneV, _, st => st.writeAll [0]
  | .someV v, depth, st =>
      andThen (st.writeAll [1]) fun st1 => serValue v depth st1
  | .unit, _, st => (st, none)
  | .unitStruct name, depth, st =>
      match enter_named_container depth name with
      | .error e => (st, some e)
      | .ok _ => (st, none)
  | .unitVariant name idx, depth, st =>
      match enter_named_container depth name with
      | .error e => (st, some e)
      | .ok _ => output_variant_index idx st
  | .newtypeStruct name v, depth, st =>
      match enter_named_container depth name with
      | .error e => (st, some e)
      | .ok d => serValue v d st
  | .newtypeVariant name idx v, depth, st =>
      match enter_named_container depth name with
      | .error e => (st, some e)
      | .ok d =>
          andThen (output_variant_index idx st) fun st1 => serValue v d st1
  | .seq xs, depth, st =>
      andThen (output_seq_len xs.length st) fun st1 => serElems xs depth st1
  | .seqNoLen _, _, st => (st, some .MissingLen)
  | .tuple xs, depth, st => serElems xs depth st
  | .tupleStruct name xs, depth, st =>
      match enter_named_container depth name with
      | .error e => (st, some e)
      | .ok d => serElems xs d st
  | .tupleVariant name idx xs, depth, st =>
      match enter_named_container depth name with
      | .error e => (st, some e)
      | .ok d =>
          andThen (output_variant_index idx st) fun st1 => serElems xs d st1
  | .map entries, depth, st =>
      match serPairs entries ⟨st, depth, [], none⟩ with
      | (m, some e) => (m.sink, some e)
      | (m, none) => mapEnd m
  | .structV name fields, depth, st =>
      match enter_named_container depth name with
      | .error e => (st, some e)
      | .ok d => serElems fields d st
  | .structVariant name idx fields, depth, st =>
      match enter_named_container depth name with
      | .error e => (st, some e)
      | .ok d =>
          andThen (output_variant_index idx st) fun st1 =>
            serElems fields d st1
termination_by v _ _ => sizeOf v
decreasing_by all_goals (simp_wf <;> omega)

/-- The element/field loop of the `SerializeSeq`, `SerializeTuple`,
`SerializeTupleStruct`, `SerializeTupleVariant`, `SerializeStruct` and
`SerializeStructVariant` impls: each element is serialized with
`Serializer::new(self.output, self.max_remaining_depth)`, i.e. with the
depth the container had on entry; `end` emits nothing. -/
def serElems : List Value → Nat → Sink → Sink × Option Err
  | [], _, st => (st, none)
  | x :: xs, depth, st =>
      andThen (serValue x depth st) fun st1 => serElems xs depth st1
termination_by xs _ _ => sizeOf xs
decreasing_by all_goals (simp_wf <;> omega)

/-- The key/value loop driven by serde's map serialization:
`serialize_key` then `serialize_value` for each entry, then `end`. -/
def serPairs : List (Value × Value) → MapSerializer →
    MapSerializer × Option Err
  | [], m => (m, none)
  | (k, v) :: rest, m =>
      match mapSerializeKey m k with
      | (m1, some e) => (m1, some e)
      | (m1, none) =>
          match mapSerializeValue m1 v with
          | (m2, some e) => (m2, some e)
          | (m2, none) => serPairs rest m2
termination_by ps _ => sizeOf ps
decreasing_by all_goals (simp_wf <;> omega)

/-- `MapSerializer::serialize_key`: fail if a key is already pending,
otherwise serialize the key into a fresh scratch `Vec` with the parent
serializer's remaining depth and store it as pending. -/
def mapSerializeKey (m : MapSerializer) (key : Value) :
    MapSerializer × Option Err :=
  if m.next_key.isSome then (m, some .ExpectedMapValue)
  else
    match serValue key m.depth (.vec []) with
    | (_, some e) => (m, some e)
    | (out, none) => ({ m with next_key := some out.toBytes }, none)
termination_by sizeOf key + 1
decreasing_by all_goals (simp_wf <;> omega)

/-- `MapSerializer::serialize_value`: fail if no key is pending, otherwise
take the pending key, serialize the value into a fresh scratch `Vec`, and
push the pair. -/
def mapSerializeValue (m : MapSerializer) (value : Value) :
    MapSerializer × Option Err :=
  match m.next_key with
  | none => (m, some .ExpectedMapKey)
  | some key =>
      match serValue value m.depth (.vec []) with
      | (_, some e) => ({ m with next_key := none }, some e)
      | (out, none) =>
          ({ m with next_key := none,
                    entries := m.entries ++ [(key, out.toBytes)] }, none)
termination_by sizeOf value + 1
decreasing_by all_goals (simp_wf <;> omega)

end

/-- The bytes `serValue` emits into an initially empty `Vec` sink. -/
def emit (v : Value) (d : Nat) : List Nat := (serValue v d (.vec [])).1.toBytes

/-- The error result of `serValue` (independent of the sink for `Vec`). -/
def serErr (v : Value) (d : Nat) : Option Err := (serValue v d (.vec [])).2

/-- `to_bytes`: serialize into a fresh `Vec<u8>` with the default depth
limit. -/
def to_bytes (v : Value) : Except Err (List Nat) :=
  match serValue v MAX_CONTAINER_DEPTH (.vec []) with
  | (_, some e) => .error e
  | (st, none) => .ok st.toBytes

/-- `to_bytes_with_limit`: reject limits above `MAX_CONTAINER_DEPTH`
before any traversal, otherwise serialize with the given limit. -/
def to_bytes_with_limit (v : Value) (limit : Nat) : Except Err (List Nat) :=
  if limit > MAX_CONTAINER_DEPTH then
    .error (.NotSupported "limit exceeds the max allowed depth")
  else
    match serValue v limit (.vec []) with
    | (_, some e) => .error e
    | (st, none) => .ok st.toBytes

/-- `serialize_into`: serialize into a caller-supplied sink with the
default depth limit. -/
def serialize_into (st : Sink) (v : Value) : Sink × Option Err :=
  serValue v MAX_CONTAINER_DEPTH st

/-- `serialize_into_with_limit`. -/
def serialize_into_with_limit (st : Sink) (v : Value) (limit : Nat) :
    Sink × Option Err :=
  if limit > MAX_CONTAINER_DEPTH then
    (st, some (.NotSupported "limit exceeds the max allowed depth"))
  else serValue v limit st

/-- `serialized_size`: run the serializer against a `WriteCounter`
starting at 0. -/
def serialized_size (v : Value) : Except Err Nat :=
  match serValue v MAX_CONTAINER_DEPTH (.counter 0) with
  | (_, some e) => .error e
  | (st, none) => .ok st.count

/-- `serialized_size_with_limit`. -/
def serialized_size_with_limit (v : Value) (limit : Nat) : Except Err Nat :=
  if limit > MAX_CONTAINER_DEPTH then
    .error (.NotSupported "limit exceeds the max allowed depth")
  else
    match serValue v limit (.counter 0) with
    | (_, some e) => .error e
    | (st, none) => .ok st.count

/-!  ## Order lemmas for the lexicographic key comparison -/

theorem lexLe_refl (a : List Nat) : lexLe a a := by
  induction a with
  | nil => rfl
  | cons x xs ih => simp [lexLe, ih]

theorem lexLe_total (a b : List Nat) : lexLe a b || lexLe b a := by
  induction a generalizing b with
  | nil => simp [lexLe]
  | cons x xs ih =>
    cases b with
    | nil => simp [lexLe]
    | cons y ys =>
      simp only [lexLe]
      rcases Nat.lt_trichotomy x y with h | h | h
      · simp [h]
      · subst h
        have := ih ys
        revert this
        simp +contextual [Bool.or_comm]
      · simp [h, Nat.lt_asymm h]

theorem lexLe_trans {a b c : List Nat} (h1 : lexLe a b) (h2 : lexLe b c) :
    lexLe a c := by
  induction a generalizing b c with
  | nil => rfl
  | cons x xs ih =>
    cases b with
    | nil => simp [lexLe] at h1
    | cons y ys =>
      cases c with
      | nil => simp [lexLe] at h2
      | cons z zs =>
        simp only [lexLe, Bool.or_eq_true, Bool.and_eq_true, decide_eq_true_eq,
          beq_iff_eq] at h1 h2 ⊢
        rcases h1 with h1 | ⟨rfl, h1⟩
        · rcases h2 with h2 | ⟨rfl, h2⟩
          · exact Or.inl (Nat.lt_trans h1 h2)
          · exact Or.inl h1
        · rcases h2 with h2 | ⟨rfl, h2⟩
          · exact Or.inl h2
          · exact Or.inr ⟨rfl, ih h1 h2⟩

theorem lexLe_antisymm {a b : List Nat} (h1 : lexLe a b) (h2 : lexLe b a) :
    a = b := by
  induction a generalizing b with
  | nil =>
    cases b with
    | nil => rfl
    | cons y ys => simp [lexLe] at h2
  | cons x xs ih =>
    cases b with
    | nil => simp [lexLe] at h1
    | cons y ys =>
      simp only [lexLe, Bool.or_eq_true, Bool.and_eq_true, decide_eq_true_eq,
        beq_iff_eq] at h1 h2
      rcases h1 with h1 | ⟨rfl, h1⟩
      · rcases h2 with h2 | ⟨e2, h2⟩
        · exact absurd h2 (Nat.lt_asymm h1)
        · exact absurd h1 (e2 ▸ Nat.lt_irrefl _)
      · rcases h2 with h2 | ⟨_, h2⟩
        · exact absurd h2 (Nat.lt_irrefl _)
        · rw [ih h1 h2]

theorem entryLe_total (a b : List Nat × List Nat) :
    entryLe a b || entryLe b a := lexLe_total a.1 b.1

theorem entryLe_trans (a b c : List Nat × List Nat) (h1 : entryLe a b)
    (h2 : entryLe b c) : entryLe a c := lexLe_trans h1 h2

/-!  ## Normal forms of the primitive writers

`Good f` packages the two facts every sink-threading step of the encoder
enjoys: on a `Vec` sink it appends a byte string that does not depend on
the buffer already present (with a buffer-independent error), and on a
`WriteCounter` sink (below its overflow bound) it adds exactly the length
of that byte string and produces the same error. -/

def Good (f : Sink → Sink × Option Err) : Prop :=
  (∀ buf, f (.vec buf) =
      (.vec (buf ++ (f (.vec [])).1.toBytes), (f (.vec [])).2)) ∧
  (∀ c, c + (f (.vec [])).1.toBytes.length ≤ USIZE_MAX →
      f (.counter c) =
        (.counter (c + (f (.vec [])).1.toBytes.length), (f (.vec [])).2))

theorem Good_congr {f g : Sink → Sink × Option Err}
    (h : ∀ st, f st = g st) (hg : Good g) : Good f := by
  have hfg : f = g := funext h
  rw [hfg]; exact hg

theorem good_writeAll (bs : List Nat) : Good (fun st => st.writeAll bs) := by
  constructor
  · intro buf; simp [Sink.writeAll, Sink.toBytes]
  · intro c hc
    simp only [Sink.writeAll, Sink.toBytes] at hc ⊢
    simp only [List.nil_append] at hc ⊢
    rw [if_pos hc]

theorem good_err (e : Err) : Good (fun st => (st, some e)) := by
  constructor
  · intro buf; simp [Sink.toBytes]
  · intro c _; simp [Sink.toBytes]

theorem good_pure : Good (fun st => (st, none)) := by
  constructor
  · intro buf; simp [Sink.toBytes]
  · intro c _; simp [Sink.toBytes]

theorem good_andThen {f g : Sink → Sink × Option Err} (hf : Good f)
    (hg : Good g) : Good (fun st => andThen (f st) g) := by
  obtain ⟨hfv, hfc⟩ := hf
  obtain ⟨hgv, hgc⟩ := hg
  have hfe : f (.vec []) = (.vec ((f (.vec [])).1.toBytes), (f (.vec [])).2) := by
    have h := hfv []
    rw [List.nil_append] at h
    exact h
  have hge : g (.vec []) = (.vec ((g (.vec [])).1.toBytes), (g (.vec [])).2) := by
    have h := hgv []
    rw [List.nil_append] at h
    exact h
  generalize hF : (f (.vec [])).1.toBytes = F at *
  generalize hEF : (f (.vec [])).2 = EF at *
  generalize hG : (g (.vec [])).1.toBytes = G at *
  generalize hEG : (g (.vec [])).2 = EG at *
  cases EF with
  | some e =>
    have hA : ∀ st, andThen (f st) g = andThen (f st) g := fun _ => rfl
    have hA0 : andThen (f (.vec [])) g = (.vec F, some e) := by
      rw [hfe]; rfl
    constructor
    · intro buf
      beta_reduce
      rw [hfv buf, hA0]
      simp [andThen, Sink.toBytes]
    · intro c hc
      beta_reduce at hc ⊢
      rw [hA0] at hc ⊢
      simp only [Sink.toBytes] at hc ⊢
      rw [hfc c hc]
      rfl
  | none =>
    have hA0 : andThen (f (.vec [])) g = (.vec (F ++ G), EG) := by
      rw [hfe]
      show g (.vec F) = _
      rw [hgv F]
    constructor
    · intro buf
      beta_reduce
      rw [hfv buf, hA0]
      show g (.vec (buf ++ F)) = _
      rw [hgv (buf ++ F)]
      simp [Sink.toBytes, List.append_assoc]
    · intro c hc
      beta_reduce at hc ⊢
      rw [hA0] at hc ⊢
      simp only [Sink.toBytes, List.length_append] at hc ⊢
      rw [hfc c (by omega)]
      show g (.counter (c + F.length)) = _
      rw [hgc (c + F.length) (by omega)]
      rw [Nat.add_assoc]

/-- The byte string `output_u32_as_uleb128` appends to a `Vec` sink is
`ulebBytes`, and it never fails there. -/
theorem uleb_vec (value : Nat) :
    ∀ buf, output_u32_as_uleb128 value (.vec buf) =
      (.vec (buf ++ ulebBytes value), none) := by
  induction value using Nat.strong_induction_on with
  | _ value ih =>
    intro buf
    rw [output_u32_as_uleb128, ulebBytes]
    by_cases h : 0x80 ≤ value
    · rw [if_pos h, if_pos h]
      simp only [Sink.writeAll, andThen]
      rw [ih (value / 0x80) (Nat.div_lt_self (by omega) (by omega))]
      simp
    · rw [if_neg h, if_neg h]
      simp [Sink.writeAll]

theorem good_uleb (value : Nat) : Good (output_u32_as_uleb128 value) := by
  induction value using Nat.strong_induction_on with
  | _ value ih =>
    by_cases h : 0x80 ≤ value
    · refine Good_congr (fun st => ?_)
        (good_andThen (good_writeAll [value % 0x80 + 0x80])
          (ih (value / 0x80) (Nat.div_lt_self (by omega) (by omega))))
      rw [output_u32_as_uleb128, if_pos h]
    · refine Good_congr (fun st => ?_) (good_writeAll [value % 256])
      rw [output_u32_as_uleb128, if_neg h]

theorem good_variant_index (v : Nat) : Good (output_variant_index v) :=
  good_uleb _

theorem good_seq_len (len : Nat) : Good (output_seq_len len) := by
  unfold output_seq_len
  by_cases h : len > MAX_SEQUENCE_LENGTH
  · simpa [h] using good_err (.ExceededMaxLen len)
  · simpa [h] using good_uleb (len % 2 ^ 32)

theorem good_writeEntries (E : List (List Nat × List Nat)) :
    Good (writeEntries E) := by
  induction E with
  | nil =>
    refine Good_congr (fun st => ?_) good_pure
    rw [writeEntries]
  | cons e rest ih =>
    obtain ⟨k, v⟩ := e
    refine Good_congr (fun st => ?_)
      (good_andThen (good_andThen (good_writeAll k) (good_writeAll v)) ih)
    rw [writeEntries]

theorem good_mapEnd (d : Nat) (E : List (List Nat × List Nat))
    (nk : Option (List Nat)) : Good (fun st => mapEnd ⟨st, d, E, nk⟩) := by
  unfold mapEnd
  cases nk with
  | some k => simpa using good_err .ExpectedMapValue
  | none =>
    simp only [Option.isSome_none, Bool.false_eq_true, if_false]
    exact good_andThen (good_seq_len _) (good_writeEntries _)

/-!  ## Sink-independence of the map serializer's buffering phase

`serialize_key` and `serialize_value` write only into owned scratch
buffers; the parent sink is carried through untouched, and the resulting
entries do not depend on it. -/

theorem mapSerializeKey_shape (m : MapSerializer) (k : Value) (s : Sink) :
    mapSerializeKey { m with sink := s } k =
      ({ (mapSerializeKey m k).1 with sink := s }, (mapSerializeKey m k).2) := by
  simp only [mapSerializeKey]
  by_cases h : m.next_key.isSome
  · simp [h]
  · simp only [h, if_false]
    cases hsv : serValue k m.depth (.vec []) with
    | mk st1 e => cases e <;> simp

theorem mapSerializeValue_shape (m : MapSerializer) (v : Value) (s : Sink) :
    mapSerializeValue { m with sink := s } v =
      ({ (mapSerializeValue m v).1 with sink := s },
        (mapSerializeValue m v).2) := by
  simp only [mapSerializeValue]
  cases hnk : m.next_key with
  | none => simp [hnk]
  | some key =>
    cases hsv : serValue v m.depth (.vec []) with
    | mk st1 e => cases e <;> simp

theorem serPairs_shape (ps : List (Value × Value)) :
    ∀ (m : MapSerializer) (s : Sink),
      serPairs ps { m with sink := s } =
        ({ (serPairs ps m).1 with sink := s }, (serPairs ps m).2) := by
  induction ps with
  | nil => intro m s; simp [serPairs]
  | cons p rest ih =>
    obtain ⟨k, v⟩ := p
    intro m s
    simp only [serPairs]
    rw [mapSerializeKey_shape]
    cases hk : mapSerializeKey m k with
    | mk m1 e1 =>
      cases e1 with
      | some e => simp
      | none =>
        simp only
        rw [mapSerializeValue_shape]
        cases hv : mapSerializeValue m1 v with
        | mk m2 e2 =>
          cases e2 with
          | some e => simp
          | none => simpa using ih m2 s

/-- The map case of the serializer, rewritten so that the buffering run
happens on a canonical empty scratch sink: the final bytes only reach the
parent sink through `mapEnd`. -/
theorem serValue_map_eq (ps : List (Value × Value)) (d : Nat) (st : Sink) :
    serValue (.map ps) d st =
      match serPairs ps ⟨.vec [], d, [], none⟩ with
      | (m, some e) => (st, some e)
      | (m, none) => mapEnd ⟨st, m.depth, m.entries, m.next_key⟩ := by
  simp only [serValue]
  have h : ({ sink := st, depth := d, entries := [], next_key := none } :
      MapSerializer) =
      { (⟨.vec [], d, [], none⟩ : MapSerializer) with sink := st } := rfl
  rw [h, serPairs_shape]
  cases hp : serPairs ps ⟨.vec [], d, [], none⟩ with
  | mk M E =>
    cases E with
    | some e => rfl
    | none => rfl

/-!  ## The master normal-form theorem -/

theorem serValue_good_all : ∀ (v : Value) (d : Nat) (st : Sink),
    Good (serValue v d) := by
  apply serValue.induct (fun v d _ => Good (serValue v d)) (fun _ _ => True)
    (fun _ _ => True) (fun _ _ => True) (fun xs d _ => Good (serElems xs d))
  all_goals try (intros; trivial)
  case case1 =>
    intro b x st
    refine Good_congr (fun st => ?_) (good_writeAll [if b then 1 else 0])
    simp only [serValue]
  case case2 =>
    intro v x st
    refine Good_congr (fun st => ?_) (good_writeAll [asUnsigned 8 v])
    simp only [serValue]
  case case3 =>
    intro v x st
    refine Good_congr (fun st => ?_) (good_writeAll (toLeBytes 2 (asUnsigned 16 v)))
    simp only [serValue]
  case case4 =>
    intro v x st
    refine Good_congr (fun st => ?_) (good_writeAll (toLeBytes 4 (asUnsigned 32 v)))
    simp only [serValue]
  case case5 =>
    intro v x st
    refine Good_congr (fun st => ?_) (good_writeAll (toLeBytes 8 (asUnsigned 64 v)))
    simp only [serValue]
  case case6 =>
    intro v x st
    refine Good_congr (fun st => ?_) (good_writeAll (toLeBytes 16 (asUnsigned 128 v)))
    simp only [serValue]
  case case7 =>
    intro v x st
    refine Good_congr (fun st => ?_) (good_writeAll [v % 256])
    simp only [serValue]
  case case8 =>
    intro v x st
    refine Good_congr (fun st => ?_) (good_writeAll (toLeBytes 2 v))
    simp only [serValue]
  case case9 =>
    intro v x st
    refine Good_congr (fun st => ?_) (good_writeAll (toLeBytes 4 v))
    simp only [serValue]
  case case10 =>
    intro v x st
    refine Good_congr (fun st => ?_) (good_writeAll (toLeBytes 8 v))
    simp only [serValue]
  case case11 =>
    intro v x st
    refine Good_congr (fun st => ?_) (good_writeAll (toLeBytes 16 v))
    simp only [serValue]
  case case12 =>
    intro x st
    refine Good_congr (fun st => ?_) (good_err (.NotSupported "serialize_f32"))
    simp only [serValue]
  case case13 =>
    intro x st
    refine Good_congr (fun st => ?_) (good_err (.NotSupported "serialize_f64"))
    simp only [serValue]
  case case14 =>
    intro x st
    refine Good_congr (fun st => ?_) (good_err (.NotSupported "serialize_char"))
    simp only [serValue]
  case case15 =>
    intro s x st
    refine Good_congr (fun st => ?_)
      (good_andThen (good_seq_len s.length) (good_writeAll s))
    simp only [serValue]
  case case16 =>
    intro b x st
    refine Good_congr (fun st => ?_)
      (good_andThen (good_seq_len b.length) (good_writeAll b))
    simp only [serValue]
  case case17 =>
    intro x st
    refine Good_congr (fun st => ?_) (good_writeAll [0])
    simp only [serValue]
  case case18 =>
    intro v depth st ih
    refine Good_congr (fun st => ?_)
      (good_andThen (good_writeAll [1]) (ih (.vec [])))
    simp only [serValue]
  case case19 =>
    intro x st
    refine Good_congr (fun st => ?_) good_pure
    simp only [serValue]
  case case20 =>
    intro name depth st e h
    refine Good_congr (fun st => ?_) (good_err e)
    simp only [serValue, h]
  case case21 =>
    intro name depth st a h
    refine Good_congr (fun st => ?_) good_pure
    simp only [serValue, h]
  case case22 =>
    intro name idx depth st e h
    refine Good_congr (fun st => ?_) (good_err e)
    simp only [serValue, h]
  case case23 =>
    intro name idx depth st a h
    refine Good_congr (fun st => ?_) (good_variant_index idx)
    simp only [serValue, h]
  case case24 =>
    intro name v depth st e h
    refine Good_congr (fun st => ?_) (good_err e)
    simp only [serValue, h]
  case case25 =>
    intro name v depth st a h ih
    refine Good_congr (fun st => ?_) ih
    simp only [serValue, h]
  case case26 =>
    intro name idx v depth st e h
    refine Good_congr (fun st => ?_) (good_err e)
    simp only [serValue, h]
  case case27 =>
    intro name idx v depth st a h ih
    refine Good_congr (fun st => ?_)
      (good_andThen (good_variant_index idx) (ih (.vec [])))
    simp only [serValue, h]
  case case28 =>
    intro xs depth st ih
    refine Good_congr (fun st => ?_)
      (good_andThen (good_seq_len xs.length) (ih (.vec [])))
    simp only [serValue]
  case case29 =>
    intro xs x st
    refine Good_congr (fun st => ?_) (good_err .MissingLen)
    simp only [serValue]
  case case30 =>
    intro xs depth st ih
    refine Good_congr (fun st => ?_) ih
    simp only [serValue]
  case case31 =>
    intro name xs depth st e h
    refine Good_congr (fun st => ?_) (good_err e)
    simp only [serValue, h]
  case case32 =>
    intro name xs depth st a h ih
    refine Good_congr (fun st => ?_) ih
    simp only [serValue, h]
  case case33 =>
    intro name idx xs depth st e h
    refine Good_congr (fun st => ?_) (good_err e)
    simp only [serValue, h]
  case case34 =>
    intro name idx xs depth st a h ih
    refine Good_congr (fun st => ?_)
      (good_andThen (good_variant_index idx) (ih (.vec [])))
    simp only [serValue, h]
  case case35 =>
    intro entries depth st m e hser ih
    rcases hp : serPairs entries (⟨.vec [], depth, [], none⟩ : MapSerializer)
      with ⟨M, E⟩
    cases E with
    | some e2 =>
      refine Good_congr (fun st => ?_) (good_err e2)
      rw [serValue_map_eq, hp]
    | none =>
      refine Good_congr (fun st => ?_)
        (good_mapEnd M.depth M.entries M.next_key)
      rw [serValue_map_eq, hp]
  case case36 =>
    intro entries depth st m hser ih
    rcases hp : serPairs entries (⟨.vec [], depth, [], none⟩ : MapSerializer)
      with ⟨M, E⟩
    cases E with
    | some e2 =>
      refine Good_congr (fun st => ?_) (good_err e2)
      rw [serValue_map_eq, hp]
    | none =>
      refine Good_congr (fun st => ?_)
        (good_mapEnd M.depth M.entries M.next_key)
      rw [serValue_map_eq, hp]
  case case37 =>
    intro name fields depth st e h
    refine Good_congr (fun st => ?_) (good_err e)
    simp only [serValue, h]
  case case38 =>
    intro name fields depth st a h ih
    refine Good_congr (fun st => ?_) ih
    simp only [serValue, h]
  case case39 =>
    intro name idx fields depth st e h
    refine Good_congr (fun st => ?_) (good_err e)
    simp only [serValue, h]
  case case40 =>
    intro name idx fields depth st a h ih
    refine Good_congr (fun st => ?_)
      (good_andThen (good_variant_index idx) (ih (.vec [])))
    simp only [serValue, h]
  case case51 =>
    intro x st
    refine Good_congr (fun st => ?_) good_pure
    simp only [serElems]
  case case52 =>
    intro x xs depth st ih1 ih2
    refine Good_congr (fun st => ?_) (good_andThen ih1 (ih2 (.vec [])))
    simp only [serElems]

theorem serElems_good (xs : List Value) (d : Nat) : Good (serElems xs d) := by
  induction xs with
  | nil =>
    refine Good_congr (fun st => ?_) good_pure
    simp only [serElems]
  | cons x rest ih =>
    refine Good_congr (fun st => ?_)
      (good_andThen (serValue_good_all x d (.vec [])) ih)
    simp only [serElems]

/-- The `Vec` normal form of the serializer: the run appends
buffer-independent bytes and its error does not depend on the buffer. -/
theorem serValue_vec (v : Value) (d : Nat) (buf : List Nat) :
    serValue v d (.vec buf) = (.vec (buf ++ emit v d), serErr v d) := by
  have h := (serValue_good_all v d (.vec [])).1 buf
  unfold emit serErr
  exact h

/-- The `WriteCounter` simulation: below the overflow bound, the counting
run adds exactly the length of the bytes the `Vec` run emits and produces
the same error. -/
theorem serValue_counter (v : Value) (d : Nat) (c : Nat)
    (h : c + (emit v d).length ≤ USIZE_MAX) :
    serValue v d (.counter c) =
      (.counter (c + (emit v d).length), serErr v d) := by
  have h2 := (serValue_good_all v d (.vec [])).2 c h
  unfold emit serErr
  exact h2

/-- Bytes the element loop emits into an empty `Vec`. -/
def emitElems (xs : List Value) (d : Nat) : List Nat :=
  (serElems xs d (.vec [])).1.toBytes

/-- Error of the element loop on a `Vec` sink. -/
def errElems (xs : List Value) (d : Nat) : Option Err :=
  (serElems xs d (.vec [])).2

theorem serElems_vec (xs : List Value) (d : Nat) (buf : List Nat) :
    serElems xs d (.vec buf) = (.vec (buf ++ emitElems xs d), errElems xs d) := by
  have h := (serElems_good xs d).1 buf
  unfold emitElems errElems
  exact h

theorem output_seq_len_vec_le (len : Nat) (h : ¬ len > MAX_SEQUENCE_LENGTH)
    (buf : List Nat) :
    output_seq_len len (.vec buf) =
      (.vec (buf ++ ulebBytes (len % 2 ^ 32)), none) := by
  rw [output_seq_len, if_neg h, uleb_vec]

theorem output_seq_len_vec_gt (len : Nat) (h : len > MAX_SEQUENCE_LENGTH)
    (st : Sink) :
    output_seq_len len st = (st, some (.ExceededMaxLen len)) := by
  rw [output_seq_len, if_pos h]

/-!  ## Per-constructor normal forms of `emit` and `serErr` -/

theorem ser_bool (b : Bool) (d : Nat) :
    emit (.bool b) d = [if b then 1 else 0] ∧ serErr (.bool b) d = none := by
  unfold emit serErr
  simp [serValue, Sink.writeAll, Sink.toBytes]

theorem ser_u8 (v d : Nat) :
    emit (.u8 v) d = [v % 256] ∧ serErr (.u8 v) d = none := by
  unfold emit serErr
  simp [serValue, Sink.writeAll, Sink.toBytes]

theorem ser_u16 (v d : Nat) :
    emit (.u16 v) d = toLeBytes 2 v ∧ serErr (.u16 v) d = none := by
  unfold emit serErr
  simp [serValue, Sink.writeAll, Sink.toBytes]

theorem ser_u32 (v d : Nat) :
    emit (.u32 v) d = toLeBytes 4 v ∧ serErr (.u32 v) d = none := by
  unfold emit serErr
  simp [serValue, Sink.writeAll, Sink.toBytes]

theorem ser_u64 (v d : Nat) :
    emit (.u64 v) d = toLeBytes 8 v ∧ serErr (.u64 v) d = none := by
  unfold emit serErr
  simp [serValue, Sink.writeAll, Sink.toBytes]

theorem ser_u128 (v d : Nat) :
    emit (.u128 v) d = toLeBytes 16 v ∧ serErr (.u128 v) d = none := by
  unfold emit serErr
  simp [serValue, Sink.writeAll, Sink.toBytes]

theorem ser_i8 (v : Int) (d : Nat) :
    emit (.i8 v) d = [asUnsigned 8 v] ∧ serErr (.i8 v) d = none := by
  unfold emit serErr
  simp [serValue, Sink.writeAll, Sink.toBytes]

theorem ser_i16 (v : Int) (d : Nat) :
    emit (.i16 v) d = toLeBytes 2 (asUnsigned 16 v) ∧
      serErr (.i16 v) d = none := by
  unfold emit serErr
  simp [serValue, Sink.writeAll, Sink.toBytes]

theorem ser_i32 (v : Int) (d : Nat) :
    emit (.i32 v) d = toLeBytes 4 (asUnsigned 32 v) ∧
      serErr (.i32 v) d = none := by
  unfold emit serErr
  simp [serValue, Sink.writeAll, Sink.toBytes]

theorem ser_i64 (v : Int) (d : Nat) :
    emit (.i64 v) d = toLeBytes 8 (asUnsigned 64 v) ∧
      serErr (.i64 v) d = none := by
  unfold emit serErr
  simp [serValue, Sink.writeAll, Sink.toBytes]

theorem ser_i128 (v : Int) (d : Nat) :
    emit (.i128 v) d = toLeBytes 16 (asUnsigned 128 v) ∧
      serErr (.i128 v) d = none := by
  unfold emit serErr
  simp [serValue, Sink.writeAll, Sink.toBytes]

theorem ser_f32 (d : Nat) :
    emit .f32 d = [] ∧ serErr .f32 d = some (.NotSupported "serialize_f32") := by
  unfold emit serErr
  simp [serValue, Sink.toBytes]

theorem ser_f64 (d : Nat) :
    emit .f64 d = [] ∧ serErr .f64 d = some (.NotSupported "serialize_f64") := by
  unfold emit serErr
  simp [serValue, Sink.toBytes]

theorem ser_char (d : Nat) :
    emit .char d = [] ∧
      serErr .char d = some (.NotSupported "serialize_char") := by
  unfold emit serErr
  simp [serValue, Sink.toBytes]

theorem ser_bytes_le (b : List Nat) (d : Nat)
    (h : ¬ b.length > MAX_SEQUENCE_LENGTH) :
    emit (.bytes b) d = ulebBytes (b.length % 2 ^ 32) ++ b ∧
      serErr (.bytes b) d = none := by
  unfold emit serErr
  simp only [serValue]
  rw [output_seq_len_vec_le _ h]
  simp [andThen, Sink.writeAll, Sink.toBytes]

theorem ser_bytes_gt (b : List Nat) (d : Nat)
    (h : b.length > MAX_SEQUENCE_LENGTH) :
    emit (.bytes b) d = [] ∧
      serErr (.bytes b) d = some (.ExceededMaxLen b.length) := by
  unfold emit serErr
  simp only [serValue]
  rw [output_seq_len_vec_gt _ h]
  simp [andThen, Sink.toBytes]

theorem ser_str_le (s : List Nat) (d : Nat)
    (h : ¬ s.length > MAX_SEQUENCE_LENGTH) :
    emit (.str s) d = ulebBytes (s.length % 2 ^ 32) ++ s ∧
      serErr (.str s) d = none := by
  unfold emit serErr
  simp only [serValue]
  rw [output_seq_len_vec_le _ h]
  simp [andThen, Sink.writeAll, Sink.toBytes]

theorem ser_str_gt (s : List Nat) (d : Nat)
    (h : s.length > MAX_SEQUENCE_LENGTH) :
    emit (.str s) d = [] ∧
      serErr (.str s) d = some (.ExceededMaxLen s.length) := by
  unfold emit serErr
  simp only [serValue]
  rw [output_seq_len_vec_gt _ h]
  simp [andThen, Sink.toBytes]

theorem ser_noneV (d : Nat) :
    emit .noneV d = [0] ∧ serErr .noneV d = none := by
  unfold emit serErr
  simp [serValue, Sink.writeAll, Sink.toBytes]

theorem ser_someV (v : Value) (d : Nat) :
    emit (.someV v) d = 1 :: emit v d ∧ serErr (.someV v) d = serErr v d := by
  unfold emit serErr
  simp only [serValue, Sink.writeAll, andThen]
  rw [serValue_vec]
  simp [Sink.toBytes, emit, serErr]

theorem ser_unit (d : Nat) : emit .unit d = [] ∧ serErr .unit d = none := by
  unfold emit serErr
  simp [serValue, Sink.toBytes]

theorem ser_unitStruct_zero (name : String) :
    emit (.unitStruct name) 0 = [] ∧
      serErr (.unitStruct name) 0 = some (.ExceededContainerDepthLimit name) := by
  unfold emit serErr
  simp [serValue, enter_named_container, Sink.toBytes]

theorem ser_unitStruct_succ (name : String) (d : Nat) (h : d ≠ 0) :
    emit (.unitStruct name) d = [] ∧ serErr (.unitStruct name) d = none := by
  unfold emit serErr
  simp [serValue, enter_named_container, h, Sink.toBytes]

theorem ser_unitVariant_zero (name : String) (idx : Nat) :
    emit (.unitVariant name idx) 0 = [] ∧
      serErr (.unitVariant name idx) 0 =
        some (.ExceededContainerDepthLimit name) := by
  unfold emit serErr
  simp [serValue, enter_named_container, Sink.toBytes]

theorem ser_unitVariant_succ (name : String) (idx d : Nat) (h : d ≠ 0) :
    emit (.unitVariant name idx) d = ulebBytes (idx % 2 ^ 32) ∧
      serErr (.unitVariant name idx) d = none := by
  unfold emit serErr
  simp only [serValue, enter_named_container, h, if_neg, if_false]
  rw [output_variant_index, uleb_vec]
  simp [Sink.toBytes]

theorem ser_newtypeStruct_zero (name : String) (v : Value) :
    emit (.newtypeStruct name v) 0 = [] ∧
      serErr (.newtypeStruct name v) 0 =
        some (.ExceededContainerDepthLimit name) := by
  unfold emit serErr
  simp [serValue, enter_named_container, Sink.toBytes]

theorem ser_newtypeStruct_succ (name : String) (v : Value) (d : Nat)
    (h : d ≠ 0) :
    emit (.newtypeStruct name v) d = emit v (d - 1) ∧
      serErr (.newtypeStruct name v) d = serErr v (d - 1) := by
  unfold emit serErr
  simp [serValue, enter_named_container, h, Sink.toBytes]

theorem ser_newtypeVariant_zero (name : String) (idx : Nat) (v : Value) :
    emit (.newtypeVariant name idx v) 0 = [] ∧
      serErr (.newtypeVariant name idx v) 0 =
        some (.ExceededContainerDepthLimit name) := by
  unfold emit serErr
  simp [serValue, enter_named_container, Sink.toBytes]

theorem ser_newtypeVariant_succ (name : String) (idx : Nat) (v : Value)
    (d : Nat) (h : d ≠ 0) :
    emit (.newtypeVariant name idx v) d =
        ulebBytes (idx % 2 ^ 32) ++ emit v (d - 1) ∧
      serErr (.newtypeVariant name idx v) d = serErr v (d - 1) := by
  unfold emit serErr
  simp only [serValue, enter_named_container, h, if_neg, if_false]
  rw [output_variant_index, uleb_vec]
  simp only [andThen, List.nil_append]
  rw [serValue_vec]
  simp [Sink.toBytes, emit, serErr]

theorem ser_seq_le (xs : List Value) (d : Nat)
    (h : ¬ xs.length > MAX_SEQUENCE_LENGTH) :
    emit (.seq xs) d = ulebBytes (xs.length % 2 ^ 32) ++ emitElems xs d ∧
      serErr (.seq xs) d = errElems xs d := by
  unfold emit serErr
  simp only [serValue]
  rw [output_seq_len_vec_le _ h]
  simp only [andThen, List.nil_append]
  rw [serElems_vec]
  simp [Sink.toBytes]

theorem ser_seq_gt (xs : List Value) (d : Nat)
    (h : xs.length > MAX_SEQUENCE_LENGTH) :
    emit (.seq xs) d = [] ∧
      serErr (.seq xs) d = some (.ExceededMaxLen xs.length) := by
  unfold emit serErr
  simp only [serValue]
  rw [output_seq_len_vec_gt _ h]
  simp [andThen, Sink.toBytes]

theorem ser_seqNoLen (xs : List Value) (d : Nat) :
    emit (.seqNoLen xs) d = [] ∧ serErr (.seqNoLen xs) d = some .MissingLen := by
  unfold emit serErr
  simp [serValue, Sink.toBytes]

theorem ser_tuple (xs : List Value) (d : Nat) :
    emit (.tuple xs) d = emitElems xs d ∧
      serErr (.tuple xs) d = errElems xs d := by
  unfold emit serErr
  simp only [serValue]
  rw [serElems_vec]
  simp [Sink.toBytes, emitElems]

theorem ser_tupleStruct_zero (name : String) (xs : List Value) :
    emit (.tupleStruct name xs) 0 = [] ∧
      serErr (.tupleStruct name xs) 0 =
        some (.ExceededContainerDepthLimit name) := by
  unfold emit serErr
  simp [serValue, enter_named_container, Sink.toBytes]

theorem ser_tupleStruct_succ (name : String) (xs : List Value) (d : Nat)
    (h : d ≠ 0) :
    emit (.tupleStruct name xs) d = emitElems xs (d - 1) ∧
      serErr (.tupleStruct name xs) d = errElems xs (d - 1) := by
  unfold emit serErr
  simp only [serValue, enter_named_container, h, if_neg, if_false]
  rw [serElems_vec]
  simp [Sink.toBytes, emitElems]

theorem ser_tupleVariant_zero (name : String) (idx : Nat) (xs : List Value) :
    emit (.tupleVariant name idx xs) 0 = [] ∧
      serErr (.tupleVariant name idx xs) 0 =
        some (.ExceededContainerDepthLimit name) := by
  unfold emit serErr
  simp [serValue, enter_named_container, Sink.toBytes]

theorem ser_tupleVariant_succ (name : String) (idx : Nat) (xs : List Value)
    (d : Nat) (h : d ≠ 0) :
    emit (.tupleVariant name idx xs) d =
        ulebBytes (idx % 2 ^ 32) ++ emitElems xs (d - 1) ∧
      serErr (.tupleVariant name idx xs) d = errElems xs (d - 1) := by
  unfold emit serErr
  simp only [serValue, enter_named_container, h, if_neg, if_false]
  rw [output_variant_index, uleb_vec]
  simp only [andThen, List.nil_append]
  rw [serElems_vec]
  simp [Sink.toBytes]

theorem ser_structV_zero (name : String) (fields : List Value) :
    emit (.structV name fields) 0 = [] ∧
      serErr (.structV name fields) 0 =
        some (.ExceededContainerDepthLimit name) := by
  unfold emit serErr
  simp [serValue, enter_named_container, Sink.toBytes]

theorem ser_structV_succ (name : String) (fields : List Value) (d : Nat)
    (h : d ≠ 0) :
    emit (.structV name fields) d = emitElems fields (d - 1) ∧
      serErr (.structV name fields) d = errElems fields (d - 1) := by
  unfold emit serErr
  simp only [serValue, enter_named_container, h, if_neg, if_false]
  rw [serElems_vec]
  simp [Sink.toBytes, emitElems]

theorem ser_structVariant_zero (name : String) (idx : Nat)
    (fields : List Value) :
    emit (.structVariant name idx fields) 0 = [] ∧
      serErr (.structVariant name idx fields) 0 =
        some (.ExceededContainerDepthLimit name) := by
  unfold emit serErr
  simp [serValue, enter_named_container, Sink.toBytes]

theorem ser_structVariant_succ (name : String) (idx : Nat)
    (fields : List Value) (d : Nat) (h : d ≠ 0) :
    emit (.structVariant name idx fields) d =
        ulebBytes (idx % 2 ^ 32) ++ emitElems fields (d - 1) ∧
      serErr (.structVariant name idx fields) d = errElems fields (d - 1) := by
  unfold emit serErr
  simp only [serValue, enter_named_container, h, if_neg, if_false]
  rw [output_variant_index, uleb_vec]
  simp only [andThen, List.nil_append]
  rw [serElems_vec]
  simp [Sink.toBytes]

theorem elems_nil (d : Nat) : emitElems [] d = [] ∧ errElems [] d = none := by
  unfold emitElems errElems
  simp [serElems, Sink.toBytes]

theorem elems_cons_err (x : Value) (xs : List Value) (d : Nat) (e : Err)
    (h : serErr x d = some e) :
    emitElems (x :: xs) d = emit x d ∧ errElems (x :: xs) d = some e := by
  unfold emitElems errElems
  simp only [serElems]
  rw [serValue_vec]
  simp [h, andThen, Sink.toBytes]

theorem elems_cons_ok (x : Value) (xs : List Value) (d : Nat)
    (h : serErr x d = none) :
    emitElems (x :: xs) d = emit x d ++ emitElems xs d ∧
      errElems (x :: xs) d = errElems xs d := by
  unfold emitElems errElems
  simp only [serElems]
  rw [serValue_vec]
  simp only [h, andThen, List.nil_append]
  rw [serElems_vec]
  simp [Sink.toBytes, emitElems, errElems]

/-!  ## Pointwise characterization of the map serializer methods -/

theorem mapKey_some (m : MapSerializer) (k : Value)
    (h : m.next_key.isSome) :
    mapSerializeKey m k = (m, some .ExpectedMapValue) := by
  simp [mapSerializeKey, h]

theorem mapKey_none_err (m : MapSerializer) (k : Value) (e : Err)
    (hnk : m.next_key = none) (h : serErr k m.depth = some e) :
    mapSerializeKey m k = (m, some e) := by
  simp only [mapSerializeKey, hnk, Option.isSome_none, Bool.false_eq_true,
    if_false]
  rw [serValue_vec, h]

theorem mapKey_none_ok (m : MapSerializer) (k : Value)
    (hnk : m.next_key = none) (h : serErr k m.depth = none) :
    mapSerializeKey m k =
      ({ m with next_key := some (emit k m.depth) }, none) := by
  simp only [mapSerializeKey, hnk, Option.isSome_none, Bool.false_eq_true,
    if_false]
  rw [serValue_vec, h]
  simp [Sink.toBytes]

theorem mapValue_none (m : MapSerializer) (v : Value)
    (h : m.next_key = none) :
    mapSerializeValue m v = (m, some .ExpectedMapKey) := by
  simp [mapSerializeValue, h]

theorem mapValue_some_err (m : MapSerializer) (v : Value) (key : List Nat)
    (e : Err) (hnk : m.next_key = some key) (h : serErr v m.depth = some e) :
    mapSerializeValue m v = ({ m with next_key := none }, some e) := by
  simp only [mapSerializeValue, hnk]
  rw [serValue_vec, h]

theorem mapValue_some_ok (m : MapSerializer) (v : Value) (key : List Nat)
    (hnk : m.next_key = some key) (h : serErr v m.depth = none) :
    mapSerializeValue m v =
      ({ m with next_key := none,
                entries := m.entries ++ [(key, emit v m.depth)] }, none) := by
  simp only [mapSerializeValue, hnk]
  rw [serValue_vec, h]
  simp [Sink.toBytes]

/-- Master characterization of the buffering loop started with no pending
key: errors are exactly the scratch-serialization errors of the presented
keys and values, and on success the serialized pairs are appended to the
entry list in presentation order, with no pending key left. -/
theorem serPairs_char (ps : List (Value × Value)) :
    ∀ m : MapSerializer, m.next_key = none →
      (∀ e, (serPairs ps m).2 = some e →
        ∃ p ∈ ps, serErr p.1 m.depth = some e ∨ serErr p.2 m.depth = some e) ∧
      ((serPairs ps m).2 = none ↔
        ∀ p ∈ ps, serErr p.1 m.depth = none ∧ serErr p.2 m.depth = none) ∧
      ((serPairs ps m).2 = none →
        (serPairs ps m).1 =
          { m with entries := m.entries ++
              ps.map (fun p => (emit p.1 m.depth, emit p.2 m.depth)) }) := by
  induction ps with
  | nil =>
    intro m hnk
    refine ⟨?_, ?_, ?_⟩
    · intro e he; simp [serPairs] at he
    · simp [serPairs]
    · intro _; simp [serPairs]
  | cons p rest ih =>
    obtain ⟨k, v⟩ := p
    intro m hnk
    rcases hk : serErr k m.depth with _ | ek
    · -- key scratch run succeeds
      have hkey := mapKey_none_ok m k hnk hk
      rcases hv : serErr v m.depth with _ | ev
      · -- value scratch run succeeds
        have hval := mapValue_some_ok { m with next_key := some (emit k m.depth) }
          v (emit k m.depth) rfl (by simpa using hv)
        set m2 : MapSerializer :=
          { m with next_key := none,
                   entries := m.entries ++ [(emit k m.depth, emit v m.depth)] }
          with hm2
        have hstep : serPairs ((k, v) :: rest) m = serPairs rest m2 := by
          simp only [serPairs, hkey, hval]
        have hrec2 := ih m2 rfl
        refine ⟨?_, ?_, ?_⟩
        · intro e he
          rw [hstep] at he
          obtain ⟨p, hp, herr⟩ := hrec2.1 e he
          exact ⟨p, List.mem_cons_of_mem _ hp, herr⟩
        · rw [hstep]
          rw [hrec2.2.1]
          constructor
          · intro hall p hp
            rcases List.mem_cons.mp hp with rfl | hp'
            · exact ⟨hk, hv⟩
            · exact hall p hp'
          · intro hall p hp
            exact hall p (List.mem_cons_of_mem _ hp)
        · intro hnone
          rw [hstep] at hnone ⊢
          rw [hrec2.2.2 hnone]
          simp only [hm2]
          simp [hnk, List.append_assoc]
      · -- value scratch run fails
        have hval := mapValue_some_err { m with next_key := some (emit k m.depth) }
          v (emit k m.depth) ev rfl (by simpa using hv)
        have hstep : serPairs ((k, v) :: rest) m =
            ({ m with next_key := none }, some ev) := by
          simp only [serPairs, hkey, hval]
        refine ⟨?_, ?_, ?_⟩
        · intro e he
          rw [hstep] at he
          simp only [Option.some.injEq] at he
          exact ⟨(k, v), List.mem_cons_self _ _, Or.inr (he ▸ hv)⟩
        · rw [hstep]
          simp only [reduceCtorEq, false_iff, not_forall]
          refine ⟨(k, v), List.mem_cons_self _ _, ?_⟩
          intro ⟨_, hv2⟩
          rw [hv] at hv2
          exact Option.noConfusion hv2
        · intro hnone
          rw [hstep] at hnone
          exact absurd hnone (by simp)
    · -- key scratch run fails
      have hkey := mapKey_none_err m k ek hnk hk
      have hstep : serPairs ((k, v) :: rest) m = (m, some ek) := by
        simp only [serPairs, hkey]
      refine ⟨?_, ?_, ?_⟩
      · intro e he
        rw [hstep] at he
        simp only [Option.some.injEq] at he
        exact ⟨(k, v), List.mem_cons_self _ _, Or.inl (he ▸ hk)⟩
      · rw [hstep]
        simp only [reduceCtorEq, false_iff, not_forall]
        refine ⟨(k, v), List.mem_cons_self _ _, ?_⟩
        intro ⟨hk2, _⟩
        rw [hk] at hk2
        exact Option.noConfusion hk2
      · intro hnone
        rw [hstep] at hnone
        exact absurd hnone (by simp)

/-!  ## Error shapes of the primitive writers -/

theorem writeAll_err (st : Sink) (bs : List Nat) :
    (st.writeAll bs).2 = none ∨ ∃ s, (st.writeAll bs).2 = some (.Io s) := by
  cases st with
  | vec buf => simp [Sink.writeAll]
  | counter n =>
    simp only [Sink.writeAll]
    by_cases h : n + bs.length ≤ USIZE_MAX
    · simp [h]
    · simp [h]

theorem uleb_err (v : Nat) (st : Sink) :
    (output_u32_as_uleb128 v st).2 = none ∨
      ∃ s, (output_u32_as_uleb128 v st).2 = some (.Io s) := by
  induction v using Nat.strong_induction_on generalizing st with
  | _ v ih =>
    rw [output_u32_as_uleb128]
    by_cases h : 0x80 ≤ v
    · rw [if_pos h]
      rcases hw : st.writeAll [v % 0x80 + 0x80] with ⟨st1, e⟩
      cases e with
      | none =>
        simp only [andThen]
        exact ih (v / 0x80) (Nat.div_lt_self (by omega) (by omega)) st1
      | some e =>
        rcases writeAll_err st [v % 0x80 + 0x80] with hn | ⟨s, hs⟩
        · rw [hw] at hn; exact absurd hn (by simp)
        · rw [hw] at hs
          simp only [andThen]
          right
          exact ⟨s, by simpa using hs⟩
    · rw [if_neg h]
      exact writeAll_err st [v % 256]

theorem output_seq_len_err (len : Nat) (st : Sink) :
    (output_seq_len len st).2 = none ∨
      (output_seq_len len st).2 = some (.ExceededMaxLen len) ∨
      ∃ s, (output_seq_len len st).2 = some (.Io s) := by
  rw [output_seq_len]
  by_cases h : len > MAX_SEQUENCE_LENGTH
  · rw [if_pos h]; simp
  · rw [if_neg h]
    rcases uleb_err (len % 2 ^ 32) st with hn | ⟨s, hs⟩
    · exact Or.inl hn
    · exact Or.inr (Or.inr ⟨s, hs⟩)

theorem writeEntries_err (E : List (List Nat × List Nat)) (st : Sink) :
    (writeEntries E st).2 = none ∨
      ∃ s, (writeEntries E st).2 = some (.Io s) := by
  induction E generalizing st with
  | nil => simp [writeEntries]
  | cons e rest ih =>
    obtain ⟨k, v⟩ := e
    rw [writeEntries]
    rcases hw : st.writeAll k with ⟨st1, e1⟩
    cases e1 with
    | some e1 =>
      rcases writeAll_err st k with hn | ⟨s, hs⟩
      · rw [hw] at hn; exact absurd hn (by simp)
      · rw [hw] at hs
        simp only [andThen]
        exact Or.inr ⟨s, by simpa using hs⟩
    | none =>
      simp only [andThen]
      rcases hw2 : st1.writeAll v with ⟨st2, e2⟩
      cases e2 with
      | some e2 =>
        rcases writeAll_err st1 v with hn | ⟨s, hs⟩
        · rw [hw2] at hn; exact absurd hn (by simp)
        · rw [hw2] at hs
          exact Or.inr ⟨s, by simpa using hs⟩
      | none => exact ih st2

theorem mapEnd_err (m : MapSerializer) (hnk : m.next_key = none) :
    (mapEnd m).2 = none ∨
      (∃ n, (mapEnd m).2 = some (.ExceededMaxLen n)) ∨
      ∃ s, (mapEnd m).2 = some (.Io s) := by
  rw [mapEnd]
  simp only [hnk, Option.isSome_none, Bool.false_eq_true, if_false]
  rcases hsl : output_seq_len (dedupByKey (m.entries.mergeSort entryLe)).length
      m.sink with ⟨st1, e1⟩
  cases e1 with
  | some e1 =>
    rcases output_seq_len_err (dedupByKey (m.entries.mergeSort entryLe)).length
        m.sink with hn | hml | ⟨s, hs⟩
    · rw [hsl] at hn; exact absurd hn (by simp)
    · rw [hsl] at hml
      simp only [andThen]
      exact Or.inr (Or.inl ⟨_, by simpa using hml⟩)
    · rw [hsl] at hs
      simp only [andThen]
      exact Or.inr (Or.inr ⟨s, by simpa using hs⟩)
  | none =>
    simp only [andThen]
    rcases writeEntries_err (dedupByKey (m.entries.mergeSort entryLe)) st1
      with hn | ⟨s, hs⟩
    · exact Or.inl hn
    · exact Or.inr (Or.inr ⟨s, hs⟩)

/-!  ## Element-loop error characterization -/

theorem errElems_mem (xs : List Value) (d : Nat) (e : Err)
    (h : errElems xs d = some e) : ∃ x ∈ xs, serErr x d = some e := by
  induction xs with
  | nil => rw [(elems_nil d).2] at h; exact absurd h (by simp)
  | cons x rest ih =>
    rcases hx : serErr x d with _ | ex
    · rw [(elems_cons_ok x rest d hx).2] at h
      obtain ⟨y, hy, he⟩ := ih h
      exact ⟨y, List.mem_cons_of_mem _ hy, he⟩
    · rw [(elems_cons_err x rest d ex hx).2] at h
      simp only [Option.some.injEq] at h
      exact ⟨x, List.mem_cons_self _ _, h ▸ hx⟩

theorem errElems_none_iff (xs : List Value) (d : Nat) :
    errElems xs d = none ↔ ∀ x ∈ xs, serErr x d = none := by
  induction xs with
  | nil => simp [(elems_nil d).2]
  | cons x rest ih =>
    rcases hx : serErr x d with _ | ex
    · rw [(elems_cons_ok x rest d hx).2, ih]
      constructor
      · intro hall y hy
        rcases List.mem_cons.mp hy with rfl | hy'
        · exact hx
        · exact hall y hy'
      · intro hall y hy
        exact hall y (List.mem_cons_of_mem _ hy)
    · rw [(elems_cons_err x rest d ex hx).2]
      simp only [reduceCtorEq, false_iff, not_forall]
      refine ⟨x, List.mem_cons_self _ _, ?_⟩
      rw [hx]
      simp

/-!  ## Claim C2: minimal ULEB128 encoding -/

/-- Reconstruction of the value from the 7-bit payload groups,
least-significant first. -/
def ulebDecode : List Nat → Nat
  | [] => 0
  | b :: bs => b % 0x80 + 0x80 * ulebDecode bs

theorem ulebBytes_ne_nil (v : Nat) : ulebBytes v ≠ [] := by
  rw [ulebBytes]
  by_cases h : 0x80 ≤ v
  · simp [h]
  · simp [h]

theorem ulebDecode_ulebBytes (v : Nat) : ulebDecode (ulebBytes v) = v := by
  induction v using Nat.strong_induction_on with
  | _ v ih =>
    rw [ulebBytes]
    by_cases h : 0x80 ≤ v
    · rw [if_pos h]
      rw [ulebDecode, ih (v / 0x80) (Nat.div_lt_self (by omega) (by omega))]
      omega
    · rw [if_neg h, ulebDecode, ulebDecode]
      omega

theorem ulebBytes_dropLast (v : Nat) :
    ∀ b ∈ (ulebBytes v).dropLast, 0x80 ≤ b ∧ b < 0x100 := by
  induction v using Nat.strong_induction_on with
  | _ v ih =>
    rw [ulebBytes]
    by_cases h : 0x80 ≤ v
    · rw [if_pos h]
      intro b hb
      rw [List.dropLast_cons_of_ne_nil (ulebBytes_ne_nil _)] at hb
      rcases List.mem_cons.mp hb with rfl | hb'
      · omega
      · exact ih (v / 0x80) (Nat.div_lt_self (by omega) (by omega)) b hb'
    · rw [if_neg h]
      intro b hb
      simp at hb

theorem ulebBytes_getLast (v : Nat) :
    ∃ l, (ulebBytes v).getLast? = some l ∧ l < 0x80 ∧ (l = 0 → v = 0) := by
  induction v using Nat.strong_induction_on with
  | _ v ih =>
    rw [ulebBytes]
    by_cases h : 0x80 ≤ v
    · rw [if_pos h]
      obtain ⟨l, hl, hl80, hl0⟩ :=
        ih (v / 0x80) (Nat.div_lt_self (by omega) (by omega))
      refine ⟨l, ?_, hl80, ?_⟩
      · rw [List.getLast?_cons, hl]
        simp [Option.getD]
      · intro h0
        have := hl0 h0
        omega
    · rw [if_neg h]
      exact ⟨v % 256, rfl, by omega, by omega⟩

/-- Claim C2: for every `u32` value `v`, `output_u32_as_uleb128` writes the
minimal-length ULEB128 encoding of `v`: the bytes emitted are `ulebBytes v`
(with no error); each byte carries 7 payload bits least-significant first
(the groups reconstruct `v`); every byte except the last has the high bit
set and the last does not; the final byte is not `0x00` unless `v = 0`; and
`0 ↦ 00`, `127 ↦ 7F`, `128 ↦ 80 01`, `16384 ↦ 80 80 01`. -/
theorem uleb128_minimal (v : Nat) (hv : v < 2 ^ 32) :
    (∀ buf, output_u32_as_uleb128 v (.vec buf) =
        (.vec (buf ++ ulebBytes v), none)) ∧
    ulebDecode (ulebBytes v) = v ∧
    (∀ b ∈ (ulebBytes v).dropLast, 0x80 ≤ b ∧ b < 0x100) ∧
    (∃ l, (ulebBytes v).getLast? = some l ∧ l < 0x80 ∧ (l = 0 → v = 0)) ∧
    ulebBytes 0 = [0x00] ∧ ulebBytes 127 = [0x7F] ∧
    ulebBytes 128 = [0x80, 0x01] ∧ ulebBytes 16384 = [0x80, 0x80, 0x01] := by
  refine ⟨uleb_vec v, ulebDecode_ulebBytes v, ulebBytes_dropLast v,
    ulebBytes_getLast v, ?_, ?_, ?_, ?_⟩
  · rw [ulebBytes]; norm_num
  · rw [ulebBytes]; norm_num
  · rw [ulebBytes]; norm_num
    rw [ulebBytes]; norm_num
  · rw [ulebBytes]; norm_num
    rw [ulebBytes]; norm_num
    rw [ulebBytes]; norm_num

theorem uleb128_minimal_witness :
    ulebDecode (ulebBytes 300) = 300 ∧ ulebBytes 300 = [0xAC, 0x02] := by
  refine ⟨(uleb128_minimal 300 (by norm_num)).2.1, ?_⟩
  rw [ulebBytes]; norm_num
  rw [ulebBytes]; norm_num

/-!  ## Claim C5: sequence length checking -/

/-- Claim C5: before any sequence-length prefix is emitted (sequences, byte
strings, text strings, and the deduplicated map entry count), the length is
checked: lengths above `MAX_SEQUENCE_LENGTH` fail with `ExceededMaxLen len`
and write nothing to the sink; otherwise the ULEB128 of the length is
written; in particular a sequence of length `MAX_SEQUENCE_LENGTH + 1`
fails. -/
theorem seq_len_checked :
    (∀ len st, MAX_SEQUENCE_LENGTH < len →
      output_seq_len len st = (st, some (.ExceededMaxLen len))) ∧
    (∀ len buf, len ≤ MAX_SEQUENCE_LENGTH →
      output_seq_len len (.vec buf) =
        (.vec (buf ++ ulebBytes (len % 2 ^ 32)), none)) ∧
    (∀ xs d st, xs.length = MAX_SEQUENCE_LENGTH + 1 →
      serValue (Value.seq xs) d st =
        (st, some (.ExceededMaxLen (MAX_SEQUENCE_LENGTH + 1)))) ∧
    (∀ b d st, MAX_SEQUENCE_LENGTH < b.length →
      serValue (Value.bytes b) d st =
        (st, some (.ExceededMaxLen b.length))) ∧
    (∀ s d st, MAX_SEQUENCE_LENGTH < s.length →
      serValue (Value.str s) d st =
        (st, some (.ExceededMaxLen s.length))) ∧
    (∀ m : MapSerializer, m.next_key = none →
      MAX_SEQUENCE_LENGTH < (dedupByKey (m.entries.mergeSort entryLe)).length →
      mapEnd m = (m.sink,
        some (.ExceededMaxLen
          (dedupByKey (m.entries.mergeSort entryLe)).length))) := by
  refine ⟨?_, ?_, ?_, ?_, ?_, ?_⟩
  · intro len st h
    exact output_seq_len_vec_gt len h st
  · intro len buf h
    exact output_seq_len_vec_le len (by omega) buf
  · intro xs d st h
    simp only [serValue, h]
    rw [output_seq_len_vec_gt _ (by omega)]
    simp [andThen]
  · intro b d st h
    simp only [serValue]
    rw [output_seq_len_vec_gt _ (by omega)]
    simp [andThen]
  · intro s d st h
    simp only [serValue]
    rw [output_seq_len_vec_gt _ (by omega)]
    simp [andThen]
  · intro m hnk h
    rw [mapEnd]
    simp only [hnk, Option.isSome_none, Bool.false_eq_true, if_false]
    rw [output_seq_len_vec_gt _ (by omega)]
    simp [andThen]

theorem seq_len_checked_witness :
    serValue (Value.seq (List.replicate (2 ^ 31) Value.unit)) 5 (.vec []) =
      (.vec [], some (.ExceededMaxLen (MAX_SEQUENCE_LENGTH + 1))) := by
  apply seq_len_checked.2.2.1
  rw [List.length_replicate, MAX_SEQUENCE_LENGTH]
  omega

/-!  ## Claim C3: depth enforcement on a chain of named wrappers -/

/-- A linear chain of named single-field wrappers (newtype structs) with
the given names, outermost first, around a leaf value. -/
def chainOfNames (names : List String) (leaf : Value) : Value :=
  names.foldr (fun n acc => Value.newtypeStruct n acc) leaf

theorem chainOfNames_nil (leaf : Value) : chainOfNames [] leaf = leaf := rfl

theorem chainOfNames_cons (n : String) (ns : List String) (leaf : Value) :
    chainOfNames (n :: ns) leaf =
      .newtypeStruct n (chainOfNames ns leaf) := by
  simp [chainOfNames]

/-- Claim C3: serializing a chain of `k` named wrappers with depth budget
`L` succeeds iff `k ≤ L`; on failure the error carries the name of the
wrapper whose entry exhausted the budget (the one at nesting depth `L`),
and `to_bytes_with_limit` at a legal limit succeeds on the chain iff
`k ≤ L`. -/
theorem depth_chain (names : List String) (leaf : Value)
    (hleaf : ∀ d, serErr leaf d = none) (L : Nat) :
    (serErr (chainOfNames names leaf) L = none ↔ names.length ≤ L) ∧
    (∀ h : L < names.length,
      serErr (chainOfNames names leaf) L =
        some (.ExceededContainerDepthLimit (names.get ⟨L, h⟩))) ∧
    (L ≤ MAX_CONTAINER_DEPTH →
      ((to_bytes_with_limit (chainOfNames names leaf) L).isOk ↔
        names.length ≤ L)) := by
  have main : ∀ (ns : List String) (M : Nat),
      (serErr (chainOfNames ns leaf) M = none ↔ ns.length ≤ M) ∧
      (∀ h : M < ns.length,
        serErr (chainOfNames ns leaf) M =
          some (.ExceededContainerDepthLimit (ns.get ⟨M, h⟩))) := by
    intro ns
    induction ns with
    | nil =>
      intro M
      rw [chainOfNames_nil]
      refine ⟨by simp [hleaf M], ?_⟩
      intro h
      exact absurd h (by simp)
    | cons n rest ih =>
      intro M
      rw [chainOfNames_cons]
      cases M with
      | zero =>
        rw [(ser_newtypeStruct_zero n _).2]
        refine ⟨by simp, ?_⟩
        intro h
        rfl
      | succ M' =>
        rw [(ser_newtypeStruct_succ n _ (M' + 1) (by omega)).2]
        simp only [Nat.add_sub_cancel]
        refine ⟨?_, ?_⟩
        · rw [(ih M').1]
          simp only [List.length_cons]
          omega
        · intro h
          have h' : M' < rest.length := by
            simpa using h
          rw [(ih M').2 h']
          rfl
  refine ⟨(main names L).1, (main names L).2, ?_⟩
  intro hL
  rw [to_bytes_with_limit, if_neg (by omega)]
  rw [serValue_vec]
  rcases he : serErr (chainOfNames names leaf) L with _ | e
  · simp only [Except.isOk, Except.toBool]
    rw [← (main names L).1, he]
    simp
  · simp only [Except.isOk, Except.toBool]
    rw [← (main names L).1, he]
    simp

theorem depth_chain_witness :
    serErr (chainOfNames ["a", "b"] .unit) 1 =
      some (.ExceededContainerDepthLimit "b") := by
  have h := (depth_chain ["a", "b"] .unit (fun d => (ser_unit d).2) 1).2.1
    (by norm_num)
  simpa using h

/-!  ## Claim C10: map serialization is atomic for the parent sink -/

theorem serPairs_sink_eq (ps : List (Value × Value)) (m : MapSerializer) :
    (serPairs ps m).1.sink = m.sink := by
  induction ps generalizing m with
  | nil => simp [serPairs]
  | cons p rest ih =>
    obtain ⟨k, v⟩ := p
    have hkey : ∀ mk : MapSerializer, (mapSerializeKey mk k).1.sink = mk.sink := by
      intro mk
      rw [mapSerializeKey]
      by_cases h : mk.next_key.isSome
      · simp [h]
      · simp only [h, Bool.false_eq_true, if_false]
        rcases serValue k mk.depth (.vec []) with ⟨st1, e⟩
        cases e <;> simp
    have hval : ∀ mv : MapSerializer, (mapSerializeValue mv v).1.sink = mv.sink := by
      intro mv
      rw [mapSerializeValue]
      rcases mv.next_key with _ | key
      · simp
      · rcases serValue v mv.depth (.vec []) with ⟨st1, e⟩
        cases e <;> simp
    rw [serPairs]
    rcases hk : mapSerializeKey m k with ⟨m1, e1⟩
    have hsink1 : m1.sink = m.sink := by
      have h2 := hkey m
      rw [hk] at h2
      exact h2
    cases e1 with
    | some e => simpa using hsink1
    | none =>
      simp only
      rcases hv : mapSerializeValue m1 v with ⟨m2, e2⟩
      have hsink2 : m2.sink = m1.sink := by
        have h2 := hval m1
        rw [hv] at h2
        exact h2
      cases e2 with
      | some e =>
        simpa using hsink2.trans hsink1
      | none =>
        simp only
        rw [ih m2, hsink2, hsink1]

/-- Claim C10: `serialize_key` and `serialize_value` write only into owned
scratch buffers, never into the parent sink, so no byte of the map reaches
the sink before `end`; if the buffering loop fails, the map serialization
returns the sink exactly as it was at `serialize_map`; and `end` leaves the
sink untouched when its pending-key or length check fails. -/
theorem map_atomic :
    (∀ (m : MapSerializer) (k : Value),
      (mapSerializeKey m k).1.sink = m.sink) ∧
    (∀ (m : MapSerializer) (v : Value),
      (mapSerializeValue m v).1.sink = m.sink) ∧
    (∀ (ps : List (Value × Value)) (m : MapSerializer),
      (serPairs ps m).1.sink = m.sink) ∧
    (∀ (ps : List (Value × Value)) (d : Nat) (st : Sink) (e : Err),
      (serPairs ps ⟨st, d, [], none⟩).2 = some e →
        serValue (.map ps) d st = (st, some e)) ∧
    (∀ m : MapSerializer, m.next_key.isSome →
      mapEnd m = (m.sink, some .ExpectedMapValue)) ∧
    (∀ m : MapSerializer, m.next_key = none →
      MAX_SEQUENCE_LENGTH < (dedupByKey (m.entries.mergeSort entryLe)).length →
      mapEnd m = (m.sink,
        some (.ExceededMaxLen
          (dedupByKey (m.entries.mergeSort entryLe)).length))) := by
  refine ⟨?_, ?_, serPairs_sink_eq, ?_, ?_, ?_⟩
  · intro m k
    rw [mapSerializeKey]
    by_cases h : m.next_key.isSome
    · simp [h]
    · simp only [h, Bool.false_eq_true, if_false]
      rcases serValue k m.depth (.vec []) with ⟨st1, e⟩
      cases e <;> simp
  · intro m v
    rw [mapSerializeValue]
    rcases m.next_key with _ | key
    · simp
    · rcases serValue v m.depth (.vec []) with ⟨st1, e⟩
      cases e <;> simp
  · intro ps d st e he
    simp only [serValue]
    rcases hp : serPairs ps ⟨st, d, [], none⟩ with ⟨M, E⟩
    rw [hp] at he
    simp only at he
    subst he
    have : M.sink = st := by
      have := serPairs_sink_eq ps ⟨st, d, [], none⟩
      rw [hp] at this
      exact this
    simp [this]
  · intro m h
    rw [mapEnd, if_pos h]
  · intro m hnk h
    rw [mapEnd]
    simp only [hnk, Option.isSome_none, Bool.false_eq_true, if_false]
    rw [output_seq_len_vec_gt _ (by omega)]
    simp [andThen]

theorem map_atomic_witness :
    mapEnd ⟨.vec [7], 5, [], some [1]⟩ = (.vec [7], some .ExpectedMapValue) ∧
    (mapSerializeKey ⟨.vec [9], 5, [], none⟩ (.u8 3)).1.sink = .vec [9] :=
  ⟨map_atomic.2.2.2.2.1 ⟨.vec [7], 5, [], some [1]⟩ rfl,
    map_atomic.1 ⟨.vec [9], 5, [], none⟩ (.u8 3)⟩

/-!  ## Values containing a rejected primitive -/

mutual

/-- Whether the value graph contains an `f32`, `f64` or `char` leaf. -/
def hasFloatChar : Value → Bool
  | .f32 => true
  | .f64 => true
  | .char => true
  | .someV v => hasFloatChar v
  | .newtypeStruct _ v => hasFloatChar v
  | .newtypeVariant _ _ v => hasFloatChar v
  | .seq xs => hasFloatCharList xs
  | .seqNoLen xs => hasFloatCharList xs
  | .tuple xs => hasFloatCharList xs
  | .tupleStruct _ xs => hasFloatCharList xs
  | .tupleVariant _ _ xs => hasFloatCharList xs
  | .structV _ xs => hasFloatCharList xs
  | .structVariant _ _ xs => hasFloatCharList xs
  | .map ps => hasFloatCharPairs ps
  | _ => false
termination_by v => sizeOf v
decreasing_by all_goals (simp_wf <;> omega)

def hasFloatCharList : List Value → Bool
  | [] => false
  | x :: xs => hasFloatChar x || hasFloatCharList xs
termination_by xs => sizeOf xs
decreasing_by all_goals (simp_wf <;> omega)

def hasFloatCharPairs : List (Value × Value) → Bool
  | [] => false
  | (k, v) :: ps => hasFloatChar k || hasFloatChar v || hasFloatCharPairs ps
termination_by ps => sizeOf ps
decreasing_by all_goals (simp_wf <;> omega)

end

theorem hasFloatCharList_of_mem {x : Value} {xs : List Value} (hx : x ∈ xs)
    (h : hasFloatChar x = true) : hasFloatCharList xs = true := by
  induction xs with
  | nil => exact absurd hx (by simp)
  | cons y ys ih =>
    simp only [hasFloatCharList]
    rcases List.mem_cons.mp hx with rfl | hx'
    · simp [h]
    · simp [ih hx']

theorem hasFloatCharPairs_of_mem {p : Value × Value}
    {ps : List (Value × Value)} (hp : p ∈ ps)
    (h : hasFloatChar p.1 = true ∨ hasFloatChar p.2 = true) :
    hasFloatCharPairs ps = true := by
  induction ps with
  | nil => exact absurd hp (by simp)
  | cons q qs ih =>
    obtain ⟨qk, qv⟩ := q
    simp only [hasFloatCharPairs]
    rcases List.mem_cons.mp hp with rfl | hp'
    · rcases h with h | h <;> simp_all
    · simp [ih hp']

/-!  ## `mapEnd` on a `Vec` sink -/

theorem writeEntries_vec (E : List (List Nat × List Nat)) (buf : List Nat) :
    writeEntries E (.vec buf) =
      (.vec (buf ++ (E.map (fun p => p.1 ++ p.2)).flatten), none) := by
  induction E generalizing buf with
  | nil => simp [writeEntries, Sink.toBytes]
  | cons e rest ih =>
    obtain ⟨k, v⟩ := e
    rw [writeEntries]
    simp only [Sink.writeAll, andThen]
    rw [ih]
    simp [List.append_assoc]

/-- The canonical entry list of `MapSerializer::end`: sorted by key bytes
then deduplicated. -/
def canonEntries (E : List (List Nat × List Nat)) :
    List (List Nat × List Nat) :=
  dedupByKey (E.mergeSort entryLe)

theorem mapEnd_vec_le (d : Nat) (E : List (List Nat × List Nat))
    (buf : List Nat)
    (h : ¬ (canonEntries E).length > MAX_SEQUENCE_LENGTH) :
    mapEnd ⟨.vec buf, d, E, none⟩ =
      (.vec (buf ++ ulebBytes ((canonEntries E).length % 2 ^ 32) ++
        ((canonEntries E).map (fun p => p.1 ++ p.2)).flatten), none) := by
  rw [mapEnd]
  simp only [Option.isSome_none, Bool.false_eq_true, if_false]
  rw [show dedupByKey ((⟨.vec buf, d, E, none⟩ : MapSerializer).entries.mergeSort
    entryLe) = canonEntries E from rfl]
  rw [output_seq_len_vec_le _ h]
  simp only [andThen]
  rw [writeEntries_vec]

theorem mapEnd_vec_gt (d : Nat) (E : List (List Nat × List Nat))
    (buf : List Nat)
    (h : (canonEntries E).length > MAX_SEQUENCE_LENGTH) :
    mapEnd ⟨.vec buf, d, E, none⟩ =
      (.vec buf, some (.ExceededMaxLen (canonEntries E).length)) := by
  rw [mapEnd]
  simp only [Option.isSome_none, Bool.false_eq_true, if_false]
  rw [show dedupByKey ((⟨.vec buf, d, E, none⟩ : MapSerializer).entries.mergeSort
    entryLe) = canonEntries E from rfl]
  rw [output_seq_len_vec_gt _ h]
  simp [andThen]

/-!  ## Classification of serializer errors -/

/-- Which errors the serializer may surface for a given value: protocol
errors never escape, `Io` never arises on a `Vec` sink, and `NotSupported`
only arises when the value contains a rejected primitive. -/
def errOkFor (v : Value) : Err → Prop
  | .NotSupported _ => hasFloatChar v = true
  | .ExpectedMapKey => False
  | .ExpectedMapValue => False
  | .Io _ => False
  | _ => True

theorem errOkFor_lift {v parent : Value} {e : Err}
    (hp : hasFloatChar v = true → hasFloatChar parent = true)
    (h : errOkFor v e) : errOkFor parent e := by
  cases e with
  | NotSupported r => exact hp h
  | ExpectedMapKey => exact h.elim
  | ExpectedMapValue => exact h.elim
  | Io s => exact h.elim
  | ExceededMaxLen n => trivial
  | ExceededContainerDepthLimit name => trivial
  | MissingLen => trivial

theorem serErr_classify : ∀ (v : Value) (d : Nat) (e : Err),
    serErr v d = some e → errOkFor v e := by
  have H : ∀ (n : Nat) (v : Value), sizeOf v ≤ n →
      ∀ (d : Nat) (e : Err), serErr v d = some e → errOkFor v e := by
    intro n
    induction n with
    | zero =>
      intro v hv
      cases v <;> simp at hv
    | succ n ihn =>
      intro v hv d e he
      cases v with
      | bool b => rw [(ser_bool b d).2] at he; exact absurd he (by simp)
      | i8 x => rw [(ser_i8 x d).2] at he; exact absurd he (by simp)
      | i16 x => rw [(ser_i16 x d).2] at he; exact absurd he (by simp)
      | i32 x => rw [(ser_i32 x d).2] at he; exact absurd he (by simp)
      | i64 x => rw [(ser_i64 x d).2] at he; exact absurd he (by simp)
      | i128 x => rw [(ser_i128 x d).2] at he; exact absurd he (by simp)
      | u8 x => rw [(ser_u8 x d).2] at he; exact absurd he (by simp)
      | u16 x => rw [(ser_u16 x d).2] at he; exact absurd he (by simp)
      | u32 x => rw [(ser_u32 x d).2] at he; exact absurd he (by simp)
      | u64 x => rw [(ser_u64 x d).2] at he; exact absurd he (by simp)
      | u128 x => rw [(ser_u128 x d).2] at he; exact absurd he (by simp)
      | f32 =>
        rw [(ser_f32 d).2] at he
        cases he
        simp [errOkFor, hasFloatChar]
      | f64 =>
        rw [(ser_f64 d).2] at he
        cases he
        simp [errOkFor, hasFloatChar]
      | char =>
        rw [(ser_char d).2] at he
        cases he
        simp [errOkFor, hasFloatChar]
      | str s =>
        by_cases hl : s.length > MAX_SEQUENCE_LENGTH
        · rw [(ser_str_gt s d hl).2] at he
          cases he
          trivial
        · rw [(ser_str_le s d hl).2] at he
          exact absurd he (by simp)
      | bytes b =>
        by_cases hl : b.length > MAX_SEQUENCE_LENGTH
        · rw [(ser_bytes_gt b d hl).2] at he
          cases he
          trivial
        · rw [(ser_bytes_le b d hl).2] at he
          exact absurd he (by simp)
      | noneV => rw [(ser_noneV d).2] at he; exact absurd he (by simp)
      | someV v' =>
        rw [(ser_someV v' d).2] at he
        have hv' : sizeOf v' ≤ n := by simp at hv; omega
        exact errOkFor_lift (by intro h; simpa [hasFloatChar] using h)
          (ihn v' hv' d e he)
      | unit => rw [(ser_unit d).2] at he; exact absurd he (by simp)
      | unitStruct name =>
        cases d with
        | zero =>
          rw [(ser_unitStruct_zero name).2] at he
          cases he
          trivial
        | succ d' =>
          rw [(ser_unitStruct_succ name (d' + 1) (by omega)).2] at he
          exact absurd he (by simp)
      | unitVariant name idx =>
        cases d with
        | zero =>
          rw [(ser_unitVariant_zero name idx).2] at he
          cases he
          trivial
        | succ d' =>
          rw [(ser_unitVariant_succ name idx (d' + 1) (by omega)).2] at he
          exact absurd he (by simp)
      | newtypeStruct name v' =>
        cases d with
        | zero =>
          rw [(ser_newtypeStruct_zero name v').2] at he
          cases he
          trivial
        | succ d' =>
          rw [(ser_newtypeStruct_succ name v' (d' + 1) (by omega)).2] at he
          have hv' : sizeOf v' ≤ n := by simp at hv; omega
          exact errOkFor_lift (by intro h; simpa [hasFloatChar] using h)
            (ihn v' hv' d' e (by simpa using he))
      | newtypeVariant name idx v' =>
        cases d with
        | zero =>
          rw [(ser_newtypeVariant_zero name idx v').2] at he
          cases he
          trivial
        | succ d' =>
          rw [(ser_newtypeVariant_succ name idx v' (d' + 1) (by omega)).2] at he
          have hv' : sizeOf v' ≤ n := by simp at hv; omega
          exact errOkFor_lift (by intro h; simpa [hasFloatChar] using h)
            (ihn v' hv' d' e (by simpa using he))
      | seq xs =>
        by_cases hl : xs.length > MAX_SEQUENCE_LENGTH
        · rw [(ser_seq_gt xs d hl).2] at he
          cases he
          trivial
        · rw [(ser_seq_le xs d hl).2] at he
          obtain ⟨x, hx, hxe⟩ := errElems_mem xs d e he
          have hszx : sizeOf x ≤ n := by
            have h1 := List.sizeOf_lt_of_mem hx
            simp at hv
            omega
          exact errOkFor_lift
            (by intro h; simpa [hasFloatChar] using hasFloatCharList_of_mem hx h)
            (ihn x hszx d e hxe)
      | seqNoLen xs =>
        rw [(ser_seqNoLen xs d).2] at he
        cases he
        trivial
      | tuple xs =>
        rw [(ser_tuple xs d).2] at he
        obtain ⟨x, hx, hxe⟩ := errElems_mem xs d e he
        have hszx : sizeOf x ≤ n := by
          have h1 := List.sizeOf_lt_of_mem hx
          simp at hv
          omega
        exact errOkFor_lift
          (by intro h; simpa [hasFloatChar] using hasFloatCharList_of_mem hx h)
          (ihn x hszx d e hxe)
      | tupleStruct name xs =>
        cases d with
        | zero =>
          rw [(ser_tupleStruct_zero name xs).2] at he
          cases he
          trivial
        | succ d' =>
          rw [(ser_tupleStruct_succ name xs (d' + 1) (by omega)).2] at he
          obtain ⟨x, hx, hxe⟩ := errElems_mem xs d' e (by simpa using he)
          have hszx : sizeOf x ≤ n := by
            have h1 := List.sizeOf_lt_of_mem hx
            simp at hv
            omega
          exact errOkFor_lift
            (by intro h; simpa [hasFloatChar] using hasFloatCharList_of_mem hx h)
            (ihn x hszx d' e hxe)
      | tupleVariant name idx xs =>
        cases d with
        | zero =>
          rw [(ser_tupleVariant_zero name idx xs).2] at he
          cases he
          trivial
        | succ d' =>
          rw [(ser_tupleVariant_succ name idx xs (d' + 1) (by omega)).2] at he
          obtain ⟨x, hx, hxe⟩ := errElems_mem xs d' e (by simpa using he)
          have hszx : sizeOf x ≤ n := by
            have h1 := List.sizeOf_lt_of_mem hx
            simp at hv
            omega
          exact errOkFor_lift
            (by intro h; simpa [hasFloatChar] using hasFloatCharList_of_mem hx h)
            (ihn x hszx d' e hxe)
      | structV name xs =>
        cases d with
        | zero =>
          rw [(ser_structV_zero name xs).2] at he
          cases he
          trivial
        | succ d' =>
          rw [(ser_structV_succ name xs (d' + 1) (by omega)).2] at he
          obtain ⟨x, hx, hxe⟩ := errElems_mem xs d' e (by simpa using he)
          have hszx : sizeOf x ≤ n := by
            have h1 := List.sizeOf_lt_of_mem hx
            simp at hv
            omega
          exact errOkFor_lift
            (by intro h; simpa [hasFloatChar] using hasFloatCharList_of_mem hx h)
            (ihn x hszx d' e hxe)
      | structVariant name idx xs =>
        cases d with
        | zero =>
          rw [(ser_structVariant_zero name idx xs).2] at he
          cases he
          trivial
        | succ d' =>
          rw [(ser_structVariant_succ name idx xs (d' + 1) (by omega)).2] at he
          obtain ⟨x, hx, hxe⟩ := errElems_mem xs d' e (by simpa using he)
          have hszx : sizeOf x ≤ n := by
            have h1 := List.sizeOf_lt_of_mem hx
            simp at hv
            omega
          exact errOkFor_lift
            (by intro h; simpa [hasFloatChar] using hasFloatCharList_of_mem hx h)
            (ihn x hszx d' e hxe)
      | map ps =>
        unfold serErr at he
        rw [serValue_map_eq] at he
        rcases hp : serPairs ps ⟨.vec [], d, [], none⟩ with ⟨M, E⟩
        rw [hp] at he
        cases E with
        | some e' =>
          simp only at he
          cases he
          obtain ⟨p, hpm, herr⟩ := (serPairs_char ps ⟨.vec [], d, [], none⟩
            rfl).1 e (by rw [hp])
          have hszp : sizeOf p.1 ≤ n ∧ sizeOf p.2 ≤ n := by
            have h1 := List.sizeOf_lt_of_mem hpm
            obtain ⟨pk, pv⟩ := p
            simp at hv h1 ⊢
            omega
          rcases herr with herr | herr
          · exact errOkFor_lift
              (by
                intro h
                have := hasFloatCharPairs_of_mem hpm (Or.inl h)
                simpa [hasFloatChar] using this)
              (ihn p.1 hszp.1 _ e herr)
          · exact errOkFor_lift
              (by
                intro h
                have := hasFloatCharPairs_of_mem hpm (Or.inr h)
                simpa [hasFloatChar] using this)
              (ihn p.2 hszp.2 _ e herr)
        | none =>
          simp only at he
          have hM : M = ⟨Sink.vec [], d,
              ps.map (fun p => (emit p.1 d, emit p.2 d)), none⟩ := by
            have h2 := (serPairs_char ps ⟨.vec [], d, [], none⟩ rfl).2.2
              (by rw [hp])
            rw [hp] at h2
            exact h2
          subst hM
          by_cases hlen : (canonEntries (ps.map
              (fun p => (emit p.1 d, emit p.2 d)))).length > MAX_SEQUENCE_LENGTH
          · rw [mapEnd_vec_gt d _ [] hlen] at he
            simp only at he
            cases he
            trivial
          · rw [mapEnd_vec_le d _ [] hlen] at he
            simp at he
  intro v
  exact H (sizeOf v) v le_rfl

end BCS


namespace BCS

/-!  ## Claim C7: the map key/value alternation protocol -/

/-- Claim C7: `serialize_value` with no pending key fails with
`ExpectedMapKey`; `serialize_key` while a key is pending fails with
`ExpectedMapValue`; `end` with a pending key fails with
`ExpectedMapValue`; and a properly alternating run — `(key, value)` pairs
driven in order, then `end` — never produces a protocol error. -/
theorem map_protocol :
    (∀ (m : MapSerializer) (v : Value), m.next_key = none →
      mapSerializeValue m v = (m, some .ExpectedMapKey)) ∧
    (∀ (m : MapSerializer) (k : Value), m.next_key.isSome →
      mapSerializeKey m k = (m, some .ExpectedMapValue)) ∧
    (∀ m : MapSerializer, m.next_key.isSome →
      mapEnd m = (m.sink, some .ExpectedMapValue)) ∧
    (∀ (ps : List (Value × Value)) (m : MapSerializer), m.next_key = none →
      ((serPairs ps m).2 ≠ some .ExpectedMapKey ∧
        (serPairs ps m).2 ≠ some .ExpectedMapValue) ∧
      ((serPairs ps m).2 = none →
        (mapEnd (serPairs ps m).1).2 ≠ some .ExpectedMapKey ∧
        (mapEnd (serPairs ps m).1).2 ≠ some .ExpectedMapValue)) := by
  refine ⟨mapValue_none, mapKey_some, ?_, ?_⟩
  · intro m h
    rw [mapEnd, if_pos h]
  · intro ps m hnk
    have hc := serPairs_char ps m hnk
    constructor
    · constructor
      · intro hbad
        obtain ⟨p, hp, herr⟩ := hc.1 _ hbad
        rcases herr with herr | herr
        · exact (serErr_classify p.1 m.depth _ herr).elim
        · exact (serErr_classify p.2 m.depth _ herr).elim
      · intro hbad
        obtain ⟨p, hp, herr⟩ := hc.1 _ hbad
        rcases herr with herr | herr
        · exact (serErr_classify p.1 m.depth _ herr).elim
        · exact (serErr_classify p.2 m.depth _ herr).elim
    · intro hok
      have hshape := hc.2.2 hok
      have hnk2 : (serPairs ps m).1.next_key = none := by
        rw [hshape]
        exact hnk
      rcases mapEnd_err (serPairs ps m).1 hnk2 with hn | ⟨nn, hml⟩ | ⟨s, hio⟩
      · rw [hn]; simp
      · rw [hml]; simp
      · rw [hio]; simp

theorem map_protocol_witness :
    mapSerializeValue ⟨.vec [], 5, [], none⟩ (.u8 1) =
      (⟨.vec [], 5, [], none⟩, some .ExpectedMapKey) :=
  map_protocol.1 ⟨.vec [], 5, [], none⟩ (.u8 1) rfl

/-!  ## Claim C8: where `NotSupported` arises -/

/-- Claim C8: the encoder returns `NotSupported` exactly for an `f32`,
`f64` or `char` anywhere in the value graph, or for a `*_with_limit` entry
point given a limit above the default: serializing those primitives fails
immediately with the matching reason; a value free of them never yields
`NotSupported` from the traversal; a limit above `MAX_CONTAINER_DEPTH` is
rejected before any traversal by all three entry points; and any limit at
or below the default is accepted (the traversal runs). -/
theorem not_supported_exact :
    (∀ d st, serValue .f32 d st = (st, some (.NotSupported "serialize_f32"))) ∧
    (∀ d st, serValue .f64 d st = (st, some (.NotSupported "serialize_f64"))) ∧
    (∀ d st, serValue .char d st =
      (st, some (.NotSupported "serialize_char"))) ∧
    (∀ (v : Value) (d : Nat) (r : String),
      serErr v d = some (.NotSupported r) → hasFloatChar v = true) ∧
    (∀ (v : Value) (limit : Nat), MAX_CONTAINER_DEPTH < limit →
      to_bytes_with_limit v limit =
        .error (.NotSupported "limit exceeds the max allowed depth") ∧
      serialized_size_with_limit v limit =
        .error (.NotSupported "limit exceeds the max allowed depth") ∧
      ∀ st, serialize_into_with_limit st v limit =
        (st, some (.NotSupported "limit exceeds the max allowed depth"))) ∧
    (∀ (v : Value) (limit : Nat) (st : Sink), limit ≤ MAX_CONTAINER_DEPTH →
      serialize_into_with_limit st v limit = serValue v limit st) := by
  refine ⟨?_, ?_, ?_, ?_, ?_, ?_⟩
  · intro d st; simp [serValue]
  · intro d st; simp [serValue]
  · intro d st; simp [serValue]
  · intro v d r h
    exact serErr_classify v d _ h
  · intro v limit h
    refine ⟨?_, ?_, ?_⟩
    · rw [to_bytes_with_limit, if_pos (by omega)]
    · rw [serialized_size_with_limit, if_pos (by omega)]
    · intro st
      rw [serialize_into_with_limit, if_pos (by omega)]
  · intro v limit st h
    rw [serialize_into_with_limit, if_neg (by omega)]

theorem not_supported_exact_witness :
    to_bytes_with_limit (.u8 1) 501 =
      .error (.NotSupported "limit exceeds the max allowed depth") ∧
    serialize_into_with_limit (.vec []) (.u8 1) 500 =
      serValue (.u8 1) 500 (.vec []) :=
  ⟨(not_supported_exact.2.2.2.2.1 (.u8 1) 501 (by norm_num [MAX_CONTAINER_DEPTH])).1,
    not_supported_exact.2.2.2.2.2 (.u8 1) 500 (.vec [])
      (by norm_num [MAX_CONTAINER_DEPTH])⟩

end BCS

namespace BCS

/-!  ## Claim C6: `serialized_size` is faithful to `to_bytes` -/

/-- Claim C6: running the same encoder against the counting sink yields
exactly the number of bytes the byte-producing run emits, and both runs
produce the same error otherwise: `serialized_size v` equals
`to_bytes v` mapped to its length.  The hypothesis is the `WriteCounter`
overflow bound (`checked_add` on `usize`), which every value realizable in
the source language satisfies. -/
theorem serialized_size_faithful (v : Value)
    (h : (emit v MAX_CONTAINER_DEPTH).length ≤ USIZE_MAX) :
    serialized_size v = (to_bytes v).map List.length := by
  rw [serialized_size, to_bytes]
  rw [serValue_counter v MAX_CONTAINER_DEPTH 0 (by simpa using h)]
  rw [serValue_vec]
  cases hse : serErr v MAX_CONTAINER_DEPTH <;>
    simp [Sink.count, Sink.toBytes, Except.map]

theorem serialized_size_faithful_witness :
    serialized_size (.u16 8001) = (to_bytes (.u16 8001)).map List.length :=
  serialized_size_faithful (.u16 8001) (by
    rw [(ser_u16 8001 MAX_CONTAINER_DEPTH).1]
    norm_num [toLeBytes, USIZE_MAX])

end BCS


namespace BCS

/-!  ## Sorting and deduplication theory for the map canonicalizer -/

/-- Strict ordering on entries: ascending key bytes with distinct keys. -/
def entryKeyLt (a b : List Nat × List Nat) : Prop :=
  entryLe a b = true ∧ a.1 ≠ b.1

theorem entryKeyLt_trans : Transitive entryKeyLt := by
  intro a b c hab hbc
  obtain ⟨hab, nab⟩ := hab
  obtain ⟨hbc, nbc⟩ := hbc
  refine ⟨entryLe_trans a b c hab hbc, ?_⟩
  intro hac
  apply nab
  have hba : lexLe b.1 a.1 := by
    have h2 : lexLe b.1 c.1 := hbc
    rw [← hac] at h2
    exact h2
  exact lexLe_antisymm hab hba

/-- The filter of a stable sort at one key equals the filter of the input:
entries with equal keys keep their input order. -/
theorem filter_mergeSort_key (E : List (List Nat × List Nat)) (K : List Nat) :
    (E.mergeSort entryLe).filter (fun x => x.1 == K) =
      E.filter (fun x => x.1 == K) := by
  have hA : (E.filter (fun x => x.1 == K)).Pairwise
      (fun a b => entryLe a b = true) := by
    apply List.pairwise_of_forall_mem_list
    intro a ha b hb
    have hak0 := List.of_mem_filter ha
    have hbk0 := List.of_mem_filter hb
    have hak : a.1 = K := by simpa using hak0
    have hbk : b.1 = K := by simpa using hbk0
    show lexLe a.1 b.1 = true
    rw [hak, hbk]
    exact lexLe_refl K
  have h1 : List.Sublist (E.filter (fun x => x.1 == K)) (E.mergeSort entryLe) :=
    List.sublist_mergeSort entryLe_trans entryLe_total hA (List.filter_sublist E)
  have h2 : (E.filter (fun x => x.1 == K)).filter (fun x => x.1 == K) =
      E.filter (fun x => x.1 == K) := by
    rw [List.filter_eq_self]
    intro a ha
    have h4 := List.of_mem_filter ha
    exact h4
  have h3 : List.Sublist (E.filter (fun x => x.1 == K))
      ((E.mergeSort entryLe).filter (fun x => x.1 == K)) := by
    rw [← h2]
    exact h1.filter _
  have hlen : ((E.mergeSort entryLe).filter (fun x => x.1 == K)).length =
      (E.filter (fun x => x.1 == K)).length :=
    ((List.mergeSort_perm E entryLe).filter _).length_eq
  exact (h3.eq_of_length hlen.symm).symm

theorem dedupTail_sublist (prev : List Nat × List Nat) :
    ∀ rest, List.Sublist (dedupTail prev rest) rest := by
  intro rest
  induction rest generalizing prev with
  | nil => simp [dedupTail]
  | cons e rest' ih =>
    rw [dedupTail]
    by_cases h : e.1 = prev.1
    · rw [if_pos h]
      exact (ih prev).trans (List.sublist_cons_self e rest')
    · rw [if_neg h]
      exact (ih e).cons₂ e

theorem dedupByKey_sublist (S : List (List Nat × List Nat)) :
    List.Sublist (dedupByKey S) S := by
  cases S with
  | nil => simp [dedupByKey]
  | cons e rest =>
    rw [dedupByKey]
    exact (dedupTail_sublist e rest).cons₂ e

theorem dedupTail_chain (prev : List Nat × List Nat) :
    ∀ rest, List.Chain (fun a b => ¬ a.1 = b.1) prev (dedupTail prev rest) := by
  intro rest
  induction rest generalizing prev with
  | nil => simp [dedupTail]
  | cons e rest' ih =>
    rw [dedupTail]
    by_cases h : e.1 = prev.1
    · rw [if_pos h]
      exact ih prev
    · rw [if_neg h]
      exact List.Chain.cons (fun hc => h hc.symm) (ih e)

theorem dedupByKey_chain_ne (S : List (List Nat × List Nat)) :
    List.Chain' (fun a b => ¬ a.1 = b.1) (dedupByKey S) := by
  cases S with
  | nil => simp [dedupByKey]
  | cons e rest =>
    rw [dedupByKey]
    exact dedupTail_chain e rest

theorem chain'_and {α : Type} {R S : α → α → Prop} :
    ∀ {l : List α}, List.Chain' R l → List.Chain' S l →
      List.Chain' (fun a b => R a b ∧ S a b) l
  | [], _, _ => List.chain'_nil
  | [a], _, _ => List.chain'_singleton a
  | a :: b :: l, hR, hS => by
    rw [List.chain'_cons] at hR hS ⊢
    exact ⟨⟨hR.1, hS.1⟩, chain'_and hR.2 hS.2⟩

/-- The canonical entry list is strictly sorted: ascending lexicographic
byte order of the keys, with every key appearing exactly once. -/
theorem canonEntries_strict_sorted (E : List (List Nat × List Nat)) :
    (canonEntries E).Pairwise entryKeyLt := by
  have hsorted : (E.mergeSort entryLe).Pairwise (fun a b => entryLe a b = true) :=
    List.sorted_mergeSort entryLe_trans entryLe_total E
  have hle : (canonEntries E).Pairwise (fun a b => entryLe a b = true) :=
    hsorted.sublist (dedupByKey_sublist _)
  have hchain : List.Chain' entryKeyLt (canonEntries E) := by
    have h1 := hle.chain'
    have h2 := dedupByKey_chain_ne (E.mergeSort entryLe)
    exact chain'_and h1 h2
  have htr : IsTrans (List Nat × List Nat) entryKeyLt := ⟨entryKeyLt_trans⟩
  exact List.chain'_iff_pairwise.mp hchain

/-- Filter of the canonical entries at one key: exactly the first entry of
the input with that key (if any) survives. -/
theorem canonEntries_filter (E : List (List Nat × List Nat)) (K : List Nat) :
    (canonEntries E).filter (fun x => x.1 == K) =
      (E.filter (fun x => x.1 == K)).take 1 := by
  have tail : ∀ (rest : List (List Nat × List Nat))
      (prev : List Nat × List Nat),
      (prev :: rest).Pairwise (fun a b => entryLe a b = true) →
      (dedupTail prev rest).filter (fun x => x.1 == K) =
        if K = prev.1 then []
        else (rest.filter (fun x => x.1 == K)).take 1 := by
    intro rest
    induction rest with
    | nil =>
      intro prev hp
      by_cases h : K = prev.1 <;> simp [dedupTail, h]
    | cons e rest' ih =>
      intro prev hp
      have hp' : (prev :: rest').Pairwise (fun a b => entryLe a b = true) :=
        hp.sublist ((List.sublist_cons_self e rest').cons₂ prev)
      have hpe : (e :: rest').Pairwise (fun a b => entryLe a b = true) :=
        hp.sublist (List.sublist_cons_self prev (e :: rest'))
      rw [dedupTail]
      by_cases he : e.1 = prev.1
      · rw [if_pos he, ih prev hp']
        by_cases hK : K = prev.1
        · simp [hK]
        · rw [if_neg hK, if_neg hK]
          congr 1
          rw [List.filter_cons]
          have hbeq : (e.1 == K) = false := by
            simp only [beq_eq_false_iff_ne, ne_eq]
            rw [he]
            exact fun hc => hK hc.symm
          rw [hbeq]
          simp
      · rw [if_neg he]
        rw [List.filter_cons]
        by_cases hKe : e.1 = K
        · have hbeq : (e.1 == K) = true := by simp [hKe]
          rw [hbeq]
          simp only [if_true]
          have hKp : ¬ K = prev.1 := by
            intro hc
            exact he (by rw [hKe, hc])
          rw [if_neg hKp]
          rw [List.filter_cons, hbeq]
          simp only [if_true, List.take_succ_cons, List.take_zero]
          rw [ih e hpe, if_pos hKe.symm]
        · have hbeq : (e.1 == K) = false := by simp [hKe]
          rw [hbeq]
          simp only [Bool.false_eq_true, if_false]
          rw [ih e hpe, if_neg (fun hc => hKe hc.symm)]
          by_cases hKp : K = prev.1
          · rw [if_pos hKp]
            have hnone : rest'.filter (fun x => x.1 == K) = [] := by
              rw [List.filter_eq_nil_iff]
              intro x hx
              simp only [beq_iff_eq]
              intro hxK
              have hpe1 : entryLe prev e = true :=
                (List.pairwise_cons.mp hp).1 e (List.mem_cons_self e rest')
              have hex : entryLe e x = true :=
                (List.pairwise_cons.mp hpe).1 x hx
              have hle2 : lexLe e.1 prev.1 = true := by
                have h2 : lexLe e.1 x.1 = true := hex
                rw [hxK, hKp] at h2
                exact h2
              exact he (lexLe_antisymm hle2 hpe1)
            rw [hnone]
            simp
          · rw [if_neg hKp]
            rw [List.filter_cons, hbeq]
            simp
  rw [← filter_mergeSort_key E K, canonEntries]
  have hs : (E.mergeSort entryLe).Pairwise (fun a b => entryLe a b = true) :=
    List.sorted_mergeSort entryLe_trans entryLe_total E
  rcases hS : E.mergeSort entryLe with _ | ⟨e, rest⟩
  · simp [dedupByKey]
  · rw [hS] at hs
    rw [dedupByKey, List.filter_cons, List.filter_cons]
    by_cases hK : e.1 = K
    · have hbeq : (e.1 == K) = true := by simp [hK]
      rw [hbeq]
      simp only [if_true, List.take_succ_cons, List.take_zero]
      rw [tail rest e hs, if_pos hK.symm]
    · have hbeq : (e.1 == K) = false := by simp [hK]
      rw [hbeq]
      simp only [Bool.false_eq_true, if_false]
      rw [tail rest e hs, if_neg (fun hc => hK hc.symm)]

end BCS

namespace BCS

theorem find?_eq_head_filter {α : Type} (p : α → Bool) (l : List α) :
    l.find? p = (l.filter p).head? := by
  induction l with
  | nil => simp
  | cons a l ih =>
    by_cases h : p a
    · rw [List.find?_cons_of_pos _ h, List.filter_cons_of_pos h]
      rfl
    · rw [List.find?_cons_of_neg _ h, List.filter_cons_of_neg h, ih]

/-- Claim C9: when several entries share byte-wise equal serialized keys,
the survivor after the stable sort and the consecutive deduplication of
`MapSerializer::end` is the entry presented earliest to the serializer:
every canonical entry is the first entry of the input with its key, and
every presented key has a surviving entry.  The retention rule is a pure
function of the entry sequence, hence deterministic. -/
theorem dedup_first_wins (E : List (List Nat × List Nat)) :
    (∀ e ∈ canonEntries E, E.find? (fun x => x.1 == e.1) = some e) ∧
    (∀ x ∈ E, ∃ e ∈ canonEntries E, e.1 = x.1) := by
  constructor
  · intro e he
    have hfe : e ∈ (canonEntries E).filter (fun x => x.1 == e.1) :=
      List.mem_filter.mpr ⟨he, by simp⟩
    rw [canonEntries_filter] at hfe
    rw [find?_eq_head_filter]
    rcases hfl : E.filter (fun x => x.1 == e.1) with _ | ⟨h0, t⟩
    · rw [hfl] at hfe
      simp at hfe
    · rw [hfl] at hfe
      simp only [List.take_succ_cons, List.take_zero,
        List.mem_singleton] at hfe
      subst hfe
      rw [hfl]
      rfl
  · intro x hx
    have hmem : x ∈ E.filter (fun e => e.1 == x.1) :=
      List.mem_filter.mpr ⟨hx, by simp⟩
    rcases hfl : E.filter (fun e => e.1 == x.1) with _ | ⟨h0, t⟩
    · rw [hfl] at hmem
      simp at hmem
    · have hcm : h0 ∈ (canonEntries E).filter (fun e => e.1 == x.1) := by
        rw [canonEntries_filter, hfl]
        simp
      have h1 := List.mem_filter.mp hcm
      refine ⟨h0, h1.1, by simpa using h1.2⟩

theorem dedup_first_wins_witness :
    canonEntries [([1], [20]), ([1], [10])] = [([1], [20])] ∧
    List.find? (fun x => x.1 == [1]) [([1], [20]), ([1], [10])] =
      some ([1], [20]) := by
  have hcanon : canonEntries [([1], [20]), ([1], [10])] = [([1], [20])] := by
    simp [canonEntries, List.mergeSort, List.splitInTwo, List.merge, entryLe,
      lexLe, dedupByKey, dedupTail]
  refine ⟨hcanon, ?_⟩
  exact (dedup_first_wins [([1], [20]), ([1], [10])]).1 ([1], [20])
    (by rw [hcanon]; simp)

end BCS

namespace BCS

theorem canonEntries_length_le (E : List (List Nat × List Nat)) :
    (canonEntries E).length ≤ E.length := by
  have h1 := (dedupByKey_sublist (E.mergeSort entryLe)).length_le
  rw [List.length_mergeSort] at h1
  exact h1

/-- The byte-level normal form of a successful map serialization. -/
theorem serValue_map_ok (ps : List (Value × Value)) (d : Nat)
    (buf : List Nat)
    (hok : ∀ p ∈ ps, serErr p.1 d = none ∧ serErr p.2 d = none)
    (hlen : ps.length ≤ MAX_SEQUENCE_LENGTH) :
    serValue (.map ps) d (.vec buf) =
      (.vec (buf ++
        ulebBytes ((canonEntries (ps.map
          (fun p => (emit p.1 d, emit p.2 d)))).length % 2 ^ 32) ++
        ((canonEntries (ps.map (fun p => (emit p.1 d, emit p.2 d)))).map
          (fun p => p.1 ++ p.2)).flatten), none) := by
  rw [serValue_map_eq]
  have hchar := serPairs_char ps ⟨.vec [], d, [], none⟩ rfl
  have hsucc : (serPairs ps ⟨.vec [], d, [], none⟩).2 = none :=
    hchar.2.1.mpr (by simpa using hok)
  have hshape := hchar.2.2 hsucc
  rcases hp : serPairs ps ⟨.vec [], d, [], none⟩ with ⟨M, E2⟩
  rw [hp] at hsucc hshape
  simp only at hsucc hshape
  subst hsucc
  have hM : M = ⟨.vec [], d, ps.map (fun p => (emit p.1 d, emit p.2 d)),
      none⟩ := hshape
  subst hM
  simp only
  have hclen : ¬ (canonEntries (ps.map
      (fun p => (emit p.1 d, emit p.2 d)))).length > MAX_SEQUENCE_LENGTH := by
    have h1 := canonEntries_length_le (ps.map
      (fun p => (emit p.1 d, emit p.2 d)))
    rw [List.length_map] at h1
    omega
  exact mapEnd_vec_le d _ buf hclen

/-- Claim C1: the bytes `MapSerializer::end` emits are the ULEB128 of the
post-deduplication entry count followed by, for each surviving entry in
ascending lexicographic byte order of the serialized keys, the key bytes
immediately followed by the value bytes, with each encoded key appearing
exactly once; and for any two entry sequences presenting the same
key-value set (any insertion order, serialized keys distinct), the emitted
bytes are identical. -/
theorem map_canonical (ps₁ ps₂ : List (Value × Value)) (d : Nat)
    (buf : List Nat) (hperm : ps₁.Perm ps₂)
    (hok : ∀ p ∈ ps₁, serErr p.1 d = none ∧ serErr p.2 d = none)
    (hnodup : (ps₁.map (fun p => emit p.1 d)).Nodup)
    (hlen : ps₁.length ≤ MAX_SEQUENCE_LENGTH) :
    serValue (.map ps₁) d (.vec buf) =
      (.vec (buf ++
        ulebBytes ((canonEntries (ps₁.map
          (fun p => (emit p.1 d, emit p.2 d)))).length % 2 ^ 32) ++
        ((canonEntries (ps₁.map (fun p => (emit p.1 d, emit p.2 d)))).map
          (fun p => p.1 ++ p.2)).flatten), none) ∧
    (canonEntries (ps₁.map
      (fun p => (emit p.1 d, emit p.2 d)))).Pairwise entryKeyLt ∧
    serValue (.map ps₁) d (.vec buf) = serValue (.map ps₂) d (.vec buf) := by
  have hok₂ : ∀ p ∈ ps₂, serErr p.1 d = none ∧ serErr p.2 d = none :=
    fun p hp => hok p (hperm.symm.subset hp)
  have hlen₂ : ps₂.length ≤ MAX_SEQUENCE_LENGTH := by
    rw [← hperm.length_eq]
    exact hlen
  refine ⟨serValue_map_ok ps₁ d buf hok hlen, canonEntries_strict_sorted _, ?_⟩
  rw [serValue_map_ok ps₁ d buf hok hlen, serValue_map_ok ps₂ d buf hok₂ hlen₂]
  -- the canonical entry lists coincide
  have hcanon : canonEntries (ps₁.map (fun p => (emit p.1 d, emit p.2 d))) =
      canonEntries (ps₂.map (fun p => (emit p.1 d, emit p.2 d))) := by
    have hpermE : (ps₁.map (fun p => (emit p.1 d, emit p.2 d))).Perm
        (ps₂.map (fun p => (emit p.1 d, emit p.2 d))) := hperm.map _
    have hkeys : ((ps₁.map (fun p => (emit p.1 d, emit p.2 d))).map
        Prod.fst).Nodup := by
      rw [List.map_map]
      exact hnodup
    have hinj := List.inj_on_of_nodup_map hkeys
    have hsorteq : (ps₁.map (fun p => (emit p.1 d, emit p.2 d))).mergeSort
        entryLe = (ps₂.map (fun p => (emit p.1 d, emit p.2 d))).mergeSort
        entryLe := by
      refine List.Perm.eq_of_sorted ?_
        (List.sorted_mergeSort entryLe_trans entryLe_total _)
        (List.sorted_mergeSort entryLe_trans entryLe_total _)
        ((List.mergeSort_perm _ _).trans
          (hpermE.trans (List.mergeSort_perm _ _).symm))
      intro a b ha hb hab hba
      have haE : a ∈ ps₁.map (fun p => (emit p.1 d, emit p.2 d)) :=
        List.mem_mergeSort.mp ha
      have hbE : b ∈ ps₁.map (fun p => (emit p.1 d, emit p.2 d)) :=
        hpermE.symm.subset (List.mem_mergeSort.mp hb)
      exact hinj haE hbE (lexLe_antisymm hab hba)
    rw [canonEntries, canonEntries, hsorteq]
  rw [hcanon]

theorem map_canonical_witness :
    serValue (.map [(.u8 2, .u8 20), (.u8 1, .u8 10)]) 5 (.vec []) =
      serValue (.map [(.u8 1, .u8 10), (.u8 2, .u8 20)]) 5 (.vec []) :=
  (map_canonical [(.u8 2, .u8 20), (.u8 1, .u8 10)]
    [(.u8 1, .u8 10), (.u8 2, .u8 20)] 5 []
    (List.Perm.swap _ _ _)
    (by
      intro p hp
      rcases List.mem_cons.mp hp with rfl | hp'
      · exact ⟨(ser_u8 2 5).2, (ser_u8 20 5).2⟩
      · rcases List.mem_cons.mp hp' with rfl | hp''
        · exact ⟨(ser_u8 1 5).2, (ser_u8 10 5).2⟩
        · exact absurd hp'' (by simp))
    (by
      rw [show List.map (fun p => emit p.1 5)
          [((.u8 2 : Value), (.u8 20 : Value)), (.u8 1, .u8 10)] =
          [[2], [1]] from by
        simp [List.map_cons, (ser_u8 2 5).1, (ser_u8 1 5).1]]
      simp)
    (by norm_num [MAX_SEQUENCE_LENGTH])).2.2

end BCS

namespace BCS

/-!  ## Claim C4: the depth budget is per-branch -/

mutual

/-- The maximum number of named containers on any root-to-leaf path:
named containers add one, anonymous tuples and sequences add nothing,
siblings take the maximum. -/
def namedDepth : Value → Nat
  | .someV v => namedDepth v
  | .newtypeStruct _ v => 1 + namedDepth v
  | .newtypeVariant _ _ v => 1 + namedDepth v
  | .unitStruct _ => 1
  | .unitVariant _ _ => 1
  | .seq xs => namedDepthList xs
  | .seqNoLen xs => namedDepthList xs
  | .tuple xs => namedDepthList xs
  | .tupleStruct _ xs => 1 + namedDepthList xs
  | .tupleVariant _ _ xs => 1 + namedDepthList xs
  | .structV _ xs => 1 + namedDepthList xs
  | .structVariant _ _ xs => 1 + namedDepthList xs
  | .map ps => namedDepthPairs ps
  | _ => 0
termination_by v => sizeOf v
decreasing_by all_goals (simp_wf <;> omega)

def namedDepthList : List Value → Nat
  | [] => 0
  | x :: xs => max (namedDepth x) (namedDepthList xs)
termination_by xs => sizeOf xs
decreasing_by all_goals (simp_wf <;> omega)

def namedDepthPairs : List (Value × Value) → Nat
  | [] => 0
  | (k, v) :: ps => max (max (namedDepth k) (namedDepth v)) (namedDepthPairs ps)
termination_by ps => sizeOf ps
decreasing_by all_goals (simp_wf <;> omega)

end

mutual

/-- Absence of every failure mode other than the depth budget: no
floats/chars, no unknown-length sequences, and all length checks
satisfiable. -/
def wellFormed : Value → Bool
  | .f32 => false
  | .f64 => false
  | .char => false
  | .str s => decide (s.length ≤ MAX_SEQUENCE_LENGTH)
  | .bytes b => decide (b.length ≤ MAX_SEQUENCE_LENGTH)
  | .someV v => wellFormed v
  | .newtypeStruct _ v => wellFormed v
  | .newtypeVariant _ _ v => wellFormed v
  | .seq xs => decide (xs.length ≤ MAX_SEQUENCE_LENGTH) && wellFormedList xs
  | .seqNoLen _ => false
  | .tuple xs => wellFormedList xs
  | .tupleStruct _ xs => wellFormedList xs
  | .tupleVariant _ _ xs => wellFormedList xs
  | .structV _ xs => wellFormedList xs
  | .structVariant _ _ xs => wellFormedList xs
  | .map ps => decide (ps.length ≤ MAX_SEQUENCE_LENGTH) && wellFormedPairs ps
  | _ => true
termination_by v => sizeOf v
decreasing_by all_goals (simp_wf <;> omega)

def wellFormedList : List Value → Bool
  | [] => true
  | x :: xs => wellFormed x && wellFormedList xs
termination_by xs => sizeOf xs
decreasing_by all_goals (simp_wf <;> omega)

def wellFormedPairs : List (Value × Value) → Bool
  | [] => true
  | (k, v) :: ps => wellFormed k && wellFormed v && wellFormedPairs ps
termination_by ps => sizeOf ps
decreasing_by all_goals (simp_wf <;> omega)

end

theorem wellFormedList_mem {xs : List Value} (h : wellFormedList xs = true)
    {x : Value} (hx : x ∈ xs) : wellFormed x = true := by
  induction xs with
  | nil => exact absurd hx (by simp)
  | cons y ys ih =>
    rw [wellFormedList] at h
    simp only [Bool.and_eq_true] at h
    rcases List.mem_cons.mp hx with rfl | hx'
    · exact h.1
    · exact ih h.2 hx'

theorem wellFormedPairs_mem {ps : List (Value × Value)}
    (h : wellFormedPairs ps = true) {p : Value × Value} (hp : p ∈ ps) :
    wellFormed p.1 = true ∧ wellFormed p.2 = true := by
  induction ps with
  | nil => exact absurd hp (by simp)
  | cons q qs ih =>
    obtain ⟨qk, qv⟩ := q
    rw [wellFormedPairs] at h
    simp only [Bool.and_eq_true] at h
    rcases List.mem_cons.mp hp with rfl | hp'
    · exact ⟨h.1.1, h.1.2⟩
    · exact ih h.2 hp'

theorem namedDepthList_le_iff (xs : List Value) (d : Nat) :
    namedDepthList xs ≤ d ↔ ∀ x ∈ xs, namedDepth x ≤ d := by
  induction xs with
  | nil => simp [namedDepthList]
  | cons x ys ih =>
    rw [namedDepthList]
    simp only [max_le_iff, ih]
    constructor
    · intro ⟨h1, h2⟩ y hy
      rcases List.mem_cons.mp hy with rfl | hy'
      · exact h1
      · exact h2 y hy'
    · intro h
      exact ⟨h x (List.mem_cons_self x ys),
        fun y hy => h y (List.mem_cons_of_mem _ hy)⟩

theorem namedDepthPairs_le_iff (ps : List (Value × Value)) (d : Nat) :
    namedDepthPairs ps ≤ d ↔
      ∀ p ∈ ps, namedDepth p.1 ≤ d ∧ namedDepth p.2 ≤ d := by
  induction ps with
  | nil => simp [namedDepthPairs]
  | cons q qs ih =>
    obtain ⟨qk, qv⟩ := q
    rw [namedDepthPairs]
    simp only [max_le_iff, ih]
    constructor
    · intro ⟨⟨h1, h2⟩, h3⟩ p hp
      rcases List.mem_cons.mp hp with rfl | hp'
      · exact ⟨h1, h2⟩
      · exact h3 p hp'
    · intro h
      exact ⟨⟨(h (qk, qv) (List.mem_cons_self _ _)).1,
        (h (qk, qv) (List.mem_cons_self _ _)).2⟩,
        fun p hp => h p (List.mem_cons_of_mem _ hp)⟩

end BCS

namespace BCS

theorem serErr_none_iff_namedDepth :
    ∀ (v : Value), wellFormed v = true →
      ∀ d, (serErr v d = none ↔ namedDepth v ≤ d) := by
  have H : ∀ (n : Nat) (v : Value), sizeOf v ≤ n → wellFormed v = true →
      ∀ d, (serErr v d = none ↔ namedDepth v ≤ d) := by
    intro n
    induction n with
    | zero =>
      intro v hv
      cases v <;> simp at hv
    | succ n ihn =>
      intro v hv hwf d
      cases v with
      | bool b => rw [(ser_bool b d).2]; simp [namedDepth]
      | i8 x => rw [(ser_i8 x d).2]; simp [namedDepth]
      | i16 x => rw [(ser_i16 x d).2]; simp [namedDepth]
      | i32 x => rw [(ser_i32 x d).2]; simp [namedDepth]
      | i64 x => rw [(ser_i64 x d).2]; simp [namedDepth]
      | i128 x => rw [(ser_i128 x d).2]; simp [namedDepth]
      | u8 x => rw [(ser_u8 x d).2]; simp [namedDepth]
      | u16 x => rw [(ser_u16 x d).2]; simp [namedDepth]
      | u32 x => rw [(ser_u32 x d).2]; simp [namedDepth]
      | u64 x => rw [(ser_u64 x d).2]; simp [namedDepth]
      | u128 x => rw [(ser_u128 x d).2]; simp [namedDepth]
      | f32 => simp [wellFormed] at hwf
      | f64 => simp [wellFormed] at hwf
      | char => simp [wellFormed] at hwf
      | str s =>
        have hl : ¬ s.length > MAX_SEQUENCE_LENGTH := by
          simp only [wellFormed, decide_eq_true_eq] at hwf
          omega
        rw [(ser_str_le s d hl).2]
        simp [namedDepth]
      | bytes b =>
        have hl : ¬ b.length > MAX_SEQUENCE_LENGTH := by
          simp only [wellFormed, decide_eq_true_eq] at hwf
          omega
        rw [(ser_bytes_le b d hl).2]
        simp [namedDepth]
      | noneV => rw [(ser_noneV d).2]; simp [namedDepth]
      | someV v' =>
        rw [(ser_someV v' d).2]
        simp only [wellFormed] at hwf
        have hv' : sizeOf v' ≤ n := by simp at hv; omega
        simp only [namedDepth]
        exact ihn v' hv' hwf d
      | unit => rw [(ser_unit d).2]; simp [namedDepth]
      | unitStruct name =>
        cases d with
        | zero =>
          rw [(ser_unitStruct_zero name).2]
          simp [namedDepth]
        | succ d' =>
          rw [(ser_unitStruct_succ name (d' + 1) (by omega)).2]
          simp [namedDepth]
      | unitVariant name idx =>
        cases d with
        | zero =>
          rw [(ser_unitVariant_zero name idx).2]
          simp [namedDepth]
        | succ d' =>
          rw [(ser_unitVariant_succ name idx (d' + 1) (by omega)).2]
          simp [namedDepth]
      | newtypeStruct name v' =>
        simp only [wellFormed] at hwf
        have hv' : sizeOf v' ≤ n := by simp at hv; omega
        cases d with
        | zero =>
          rw [(ser_newtypeStruct_zero name v').2]
          simp [namedDepth]
        | succ d' =>
          rw [(ser_newtypeStruct_succ name v' (d' + 1) (by omega)).2]
          simp only [namedDepth, Nat.add_sub_cancel]
          rw [ihn v' hv' hwf d']
          omega
      | newtypeVariant name idx v' =>
        simp only [wellFormed] at hwf
        have hv' : sizeOf v' ≤ n := by simp at hv; omega
        cases d with
        | zero =>
          rw [(ser_newtypeVariant_zero name idx v').2]
          simp [namedDepth]
        | succ d' =>
          rw [(ser_newtypeVariant_succ name idx v' (d' + 1) (by omega)).2]
          simp only [namedDepth, Nat.add_sub_cancel]
          rw [ihn v' hv' hwf d']
          omega
      | seq xs =>
        simp only [wellFormed, Bool.and_eq_true, decide_eq_true_eq] at hwf
        rw [(ser_seq_le xs d (by omega)).2]
        simp only [namedDepth]
        rw [errElems_none_iff, namedDepthList_le_iff]
        constructor
        · intro h x hx
          have hszx : sizeOf x ≤ n := by
            have h1 := List.sizeOf_lt_of_mem hx
            simp at hv
            omega
          exact (ihn x hszx (wellFormedList_mem hwf.2 hx) d).mp (h x hx)
        · intro h x hx
          have hszx : sizeOf x ≤ n := by
            have h1 := List.sizeOf_lt_of_mem hx
            simp at hv
            omega
          exact (ihn x hszx (wellFormedList_mem hwf.2 hx) d).mpr (h x hx)
      | seqNoLen xs => simp [wellFormed] at hwf
      | tuple xs =>
        simp only [wellFormed] at hwf
        rw [(ser_tuple xs d).2]
        simp only [namedDepth]
        rw [errElems_none_iff, namedDepthList_le_iff]
        constructor
        · intro h x hx
          have hszx : sizeOf x ≤ n := by
            have h1 := List.sizeOf_lt_of_mem hx
            simp at hv
            omega
          exact (ihn x hszx (wellFormedList_mem hwf hx) d).mp (h x hx)
        · intro h x hx
          have hszx : sizeOf x ≤ n := by
            have h1 := List.sizeOf_lt_of_mem hx
            simp at hv
            omega
          exact (ihn x hszx (wellFormedList_mem hwf hx) d).mpr (h x hx)
      | tupleStruct name xs =>
        simp only [wellFormed] at hwf
        cases d with
        | zero =>
          rw [(ser_tupleStruct_zero name xs).2]
          simp [namedDepth]
        | succ d' =>
          rw [(ser_tupleStruct_succ name xs (d' + 1) (by omega)).2]
          simp only [namedDepth, Nat.add_sub_cancel]
          rw [errElems_none_iff]
          constructor
          · intro h
            have h2 : ∀ x ∈ xs, namedDepth x ≤ d' := by
              intro x hx
              have hszx : sizeOf x ≤ n := by
                have h1 := List.sizeOf_lt_of_mem hx
                simp at hv
                omega
              exact (ihn x hszx (wellFormedList_mem hwf hx) d').mp (h x hx)
            rw [← namedDepthList_le_iff] at h2
            omega
          · intro h
            have h2 : namedDepthList xs ≤ d' := by omega
            rw [namedDepthList_le_iff] at h2
            intro x hx
            have hszx : sizeOf x ≤ n := by
              have h1 := List.sizeOf_lt_of_mem hx
              simp at hv
              omega
            exact (ihn x hszx (wellFormedList_mem hwf hx) d').mpr (h2 x hx)
      | tupleVariant name idx xs =>
        simp only [wellFormed] at hwf
        cases d with
        | zero =>
          rw [(ser_tupleVariant_zero name idx xs).2]
          simp [namedDepth]
        | succ d' =>
          rw [(ser_tupleVariant_succ name idx xs (d' + 1) (by omega)).2]
          simp only [namedDepth, Nat.add_sub_cancel]
          rw [errElems_none_iff]
          constructor
          · intro h
            have h2 : ∀ x ∈ xs, namedDepth x ≤ d' := by
              intro x hx
              have hszx : sizeOf x ≤ n := by
                have h1 := List.sizeOf_lt_of_mem hx
                simp at hv
                omega
              exact (ihn x hszx (wellFormedList_mem hwf hx) d').mp (h x hx)
            rw [← namedDepthList_le_iff] at h2
            omega
          · intro h
            have h2 : namedDepthList xs ≤ d' := by omega
            rw [namedDepthList_le_iff] at h2
            intro x hx
            have hszx : sizeOf x ≤ n := by
              have h1 := List.sizeOf_lt_of_mem hx
              simp at hv
              omega
            exact (ihn x hszx (wellFormedList_mem hwf hx) d').mpr (h2 x hx)
      | structV name xs =>
        simp only [wellFormed] at hwf
        cases d with
        | zero =>
          rw [(ser_structV_zero name xs).2]
          simp [namedDepth]
        | succ d' =>
          rw [(ser_structV_succ name xs (d' + 1) (by omega)).2]
          simp only [namedDepth, Nat.add_sub_cancel]
          rw [errElems_none_iff]
          constructor
          · intro h
            have h2 : ∀ x ∈ xs, namedDepth x ≤ d' := by
              intro x hx
              have hszx : sizeOf x ≤ n := by
                have h1 := List.sizeOf_lt_of_mem hx
                simp at hv
                omega
              exact (ihn x hszx (wellFormedList_mem hwf hx) d').mp (h x hx)
            rw [← namedDepthList_le_iff] at h2
            omega
          · intro h
            have h2 : namedDepthList xs ≤ d' := by omega
            rw [namedDepthList_le_iff] at h2
            intro x hx
            have hszx : sizeOf x ≤ n := by
              have h1 := List.sizeOf_lt_of_mem hx
              simp at hv
              omega
            exact (ihn x hszx (wellFormedList_mem hwf hx) d').mpr (h2 x hx)
      | structVariant name idx xs =>
        simp only [wellFormed] at hwf
        cases d with
        | zero =>
          rw [(ser_structVariant_zero name idx xs).2]
          simp [namedDepth]
        | succ d' =>
          rw [(ser_structVariant_succ name idx xs (d' + 1) (by omega)).2]
          simp only [namedDepth, Nat.add_sub_cancel]
          rw [errElems_none_iff]
          constructor
          · intro h
            have h2 : ∀ x ∈ xs, namedDepth x ≤ d' := by
              intro x hx
              have hszx : sizeOf x ≤ n := by
                have h1 := List.sizeOf_lt_of_mem hx
                simp at hv
                omega
              exact (ihn x hszx (wellFormedList_mem hwf hx) d').mp (h x hx)
            rw [← namedDepthList_le_iff] at h2
            omega
          · intro h
            have h2 : namedDepthList xs ≤ d' := by omega
            rw [namedDepthList_le_iff] at h2
            intro x hx
            have hszx : sizeOf x ≤ n := by
              have h1 := List.sizeOf_lt_of_mem hx
              simp at hv
              omega
            exact (ihn x hszx (wellFormedList_mem hwf hx) d').mpr (h2 x hx)
      | map ps =>
        simp only [wellFormed, Bool.and_eq_true, decide_eq_true_eq] at hwf
        have hmem : ∀ p ∈ ps, sizeOf p.1 ≤ n ∧ sizeOf p.2 ≤ n := by
          intro p hp
          have h1 := List.sizeOf_lt_of_mem hp
          obtain ⟨pk, pv⟩ := p
          simp at hv h1 ⊢
          omega
        by_cases hps : (serPairs ps ⟨.vec [], d, [], none⟩).2 = none
        · have hok := (serPairs_char ps ⟨.vec [], d, [], none⟩ rfl).2.1.mp hps
          have hnone : serErr (.map ps) d = none := by
            unfold serErr
            rw [serValue_map_ok ps d [] (by simpa using hok) hwf.1]
          rw [hnone]
          simp only [namedDepth, true_iff]
          rw [namedDepthPairs_le_iff]
          intro p hp
          have hwfp := wellFormedPairs_mem hwf.2 hp
          exact ⟨(ihn p.1 (hmem p hp).1 hwfp.1 d).mp (hok p hp).1,
            (ihn p.2 (hmem p hp).2 hwfp.2 d).mp (hok p hp).2⟩
        · rcases h2 : (serPairs ps ⟨.vec [], d, [], none⟩).2 with _ | e
          · exact absurd h2 hps
          · have hsome : serErr (.map ps) d = some e := by
              unfold serErr
              rw [serValue_map_eq]
              rcases hp2 : serPairs ps ⟨.vec [], d, [], none⟩ with ⟨M, E⟩
              rw [hp2] at h2
              simp only at h2
              subst h2
              rfl
            rw [hsome]
            simp only [namedDepth, reduceCtorEq, false_iff]
            intro hnd
            apply hps
            rw [(serPairs_char ps ⟨.vec [], d, [], none⟩ rfl).2.1]
            intro p hp
            have hwfp := wellFormedPairs_mem hwf.2 hp
            rw [namedDepthPairs_le_iff] at hnd
            exact ⟨(ihn p.1 (hmem p hp).1 hwfp.1 d).mpr (hnd p hp).1,
              (ihn p.2 (hmem p hp).2 hwfp.2 d).mpr (hnd p hp).2⟩
  intro v hwf d
  exact H (sizeOf v) v le_rfl hwf d

/-- Claim C4: anonymous tuples and ordered sequences do not decrement the
depth budget and every element is serialized with the budget the container
had on entry (the element-loop error at the same depth), so sibling
subtrees do not share decrements: for a value with no other failure mode,
encoding with budget `L` succeeds iff every root-to-leaf path passes
through at most `L` named containers. -/
theorem depth_per_branch :
    (∀ (xs : List Value) (d : Nat), serErr (.tuple xs) d = errElems xs d) ∧
    (∀ (xs : List Value) (d : Nat), xs.length ≤ MAX_SEQUENCE_LENGTH →
      serErr (.seq xs) d = errElems xs d) ∧
    (∀ (v : Value) (L : Nat) (buf : List Nat), wellFormed v = true →
      ((serValue v L (.vec buf)).2 = none ↔ namedDepth v ≤ L)) := by
  refine ⟨?_, ?_, ?_⟩
  · intro xs d
    exact (ser_tuple xs d).2
  · intro xs d h
    exact (ser_seq_le xs d (by omega)).2
  · intro v L buf hwf
    rw [serValue_vec]
    exact serErr_none_iff_namedDepth v hwf L

theorem depth_per_branch_witness :
    ((serValue (.tuple [.newtypeStruct "A" .unit, .newtypeStruct "B" .unit])
        1 (.vec [])).2 = none ↔
      namedDepth (.tuple [.newtypeStruct "A" .unit,
        .newtypeStruct "B" .unit]) ≤ 1) ∧
    (serValue (.tuple [.newtypeStruct "A" .unit, .newtypeStruct "B" .unit])
        1 (.vec [])).2 = none :=
  ⟨depth_per_branch.2.2 _ 1 [] (by
      simp [wellFormed, wellFormedList]),
    (depth_per_branch.2.2 _ 1 [] (by
      simp [wellFormed, wellFormedList])).mpr (by
      simp [namedDepth, namedDepthList])⟩

end BCS
